import Mathlib

set_option maxRecDepth 8000

/-!
Shallow embedding of the RLP library (header discipline, encoder surface,
decoder surface) and proofs of the specification claims.

Bytes are modelled as `List Nat` with each element below 256; machine
integers (`u8`..`u128`, `usize`) are `Nat` with explicit width bounds.
Fallible operations return `Except Err`.
-/

namespace Rlp

/-- The closed error taxonomy, from `src/error.rs` (`enum Error`). -/
inductive Err where
  | Overflow
  | LeadingZero
  | InputTooShort
  | NonCanonicalSingleByte
  | NonCanonicalSize
  | UnexpectedLength
  | UnexpectedString
  | UnexpectedList
  | ListLengthMismatch (expected actual : Nat)
deriving Repr, DecidableEq

deriving instance DecidableEq for Except

/-- `EMPTY_STRING_CODE` from `src/header.rs`. -/
def EMPTY_STRING_CODE : Nat := 0x80

/-- `EMPTY_LIST_CODE` from `src/header.rs`. -/
def EMPTY_LIST_CODE : Nat := 0xC0

/-- `MAX_SHORT_LEN` from `src/header.rs`. -/
def MAX_SHORT_LEN : Nat := 55

/-- `LONG_STRING_OFFSET` from `src/header.rs`. -/
def LONG_STRING_OFFSET : Nat := 0xB7

/-- `LONG_LIST_OFFSET` from `src/header.rs`. -/
def LONG_LIST_OFFSET : Nat := 0xF7

/-- `usize::BITS` on the reference (64-bit) platform. -/
def USIZE_BITS : Nat := 64

/-- `Header` from `src/header.rs`: the list flag and the payload length packed
into a single word, the flag in the most significant bit. -/
structure Header where
  packed : Nat
deriving Repr, DecidableEq

/-- `Header::new` from `src/header.rs`, parametrised by the platform word
size in bits (the source uses `usize::BITS`):
`packed = payload_length | (if list { 1 << (usize::BITS - 1) } else { 0 })`. -/
def Header.newAt (usizeBits : Nat) (list : Bool) (payload_length : Nat) : Header :=
  ⟨payload_length ||| (if list then 1 <<< (usizeBits - 1) else 0)⟩

/-- `Header::new` on the reference 64-bit platform. -/
def Header.new (list : Bool) (payload_length : Nat) : Header :=
  Header.newAt USIZE_BITS list payload_length

/-- `Header::list` from `src/header.rs`:
`packed & (1 << (usize::BITS - 1)) != 0`. -/
def Header.list (h : Header) : Bool :=
  h.packed &&& (1 <<< (USIZE_BITS - 1)) != 0

/-- `Header::payload_length` from `src/header.rs`:
`packed & !(1 << (usize::BITS - 1))`; on a 64-bit word the complement of the
top bit is `2 ^ 63 - 1`. -/
def Header.payload_length (h : Header) : Nat :=
  h.packed &&& ((1 <<< (USIZE_BITS - 1)) - 1)

theorem and_top_bit_of_lt (pl : Nat) (hpl : pl < 2 ^ 63) : pl &&& 2 ^ 63 = 0 := by
  apply Nat.eq_of_testBit_eq
  intro i
  rw [Nat.testBit_and, Nat.zero_testBit]
  by_cases hi : i = 63
  · subst hi
    rw [Nat.testBit_lt_two_pow hpl, Bool.false_and]
  · rw [Nat.testBit_two_pow_of_ne (fun he => hi he.symm), Bool.and_false]

theorem or_and_top_bit (pl : Nat) : (pl ||| 2 ^ 63) &&& 2 ^ 63 ≠ 0 := by
  have hbit : ((pl ||| 2 ^ 63) &&& 2 ^ 63).testBit 63 = true := by
    rw [Nat.testBit_and, Nat.testBit_or, Nat.testBit_two_pow_self, Bool.or_true,
      Bool.true_and]
  intro hzero
  rw [hzero, Nat.zero_testBit] at hbit
  exact Bool.false_ne_true hbit

theorem or_top_bit_and_mask (pl : Nat) (hpl : pl < 2 ^ 63) :
    (pl ||| 2 ^ 63) &&& (2 ^ 63 - 1) = pl := by
  apply Nat.eq_of_testBit_eq
  intro i
  rw [Nat.testBit_and, Nat.testBit_or, Nat.testBit_two_pow_sub_one]
  by_cases hi : i < 63
  · rw [Nat.testBit_two_pow_of_ne (by omega), decide_eq_true hi, Bool.or_false,
      Bool.and_true]
  · have h1 : pl.testBit i = false :=
      Nat.testBit_lt_two_pow (lt_of_lt_of_le hpl (Nat.pow_le_pow_right (by omega) (by omega)))
    rw [h1, decide_eq_false hi, Bool.and_false]

theorem Header.new_list (l : Bool) (pl : Nat) (hpl : pl < 2 ^ 63) :
    (Header.new l pl).list = l := by
  have hz := and_top_bit_of_lt pl hpl
  have ho := or_and_top_bit pl
  norm_num at hz ho
  cases l with
  | false =>
    simp only [Header.new, Header.newAt, Header.list, USIZE_BITS]
    norm_num [Nat.shiftLeft_eq, hz]
  | true =>
    simp only [Header.new, Header.newAt, Header.list, USIZE_BITS]
    norm_num [Nat.shiftLeft_eq, ho]

theorem Header.new_payload_length (l : Bool) (pl : Nat) (hpl : pl < 2 ^ 63) :
    (Header.new l pl).payload_length = pl := by
  have hm := Nat.and_pow_two_sub_one_of_lt_two_pow hpl
  have ho := or_top_bit_and_mask pl hpl
  norm_num at hm ho
  cases l with
  | false =>
    simp only [Header.new, Header.newAt, Header.payload_length, USIZE_BITS]
    norm_num [Nat.shiftLeft_eq, hm]
  | true =>
    simp only [Header.new, Header.newAt, Header.payload_length, USIZE_BITS]
    norm_num [Nat.shiftLeft_eq, ho]

/-- `get_next_byte` from `src/header.rs`: peek at the first byte of the
cursor without consuming it, `InputTooShort` on an empty cursor. -/
def get_next_byte (buf : List Nat) : Except Err Nat :=
  match buf with
  | [] => .error .InputTooShort
  | b :: _ => .ok b

/-- `static_left_pad::<N>` from `src/header.rs` and `src/decode.rs` (the two
copies are line-for-line identical): reject data longer than `N`
(`Overflow`), reject a non-empty slice with a leading zero byte
(`LeadingZero`), otherwise left-pad with zeros to exactly `N` bytes. -/
def static_left_pad (N : Nat) (data : List Nat) : Except Err (List Nat) :=
  if data.length > N then .error .Overflow
  else
    match data with
    | [] => .ok (List.replicate N 0)
    | d :: _ =>
      if d = 0 then .error .LeadingZero
      else .ok (List.replicate (N - data.length) 0 ++ data)

/-- `u64::from_be_bytes` (and the big-endian value of any byte slice). -/
def u64_from_be_bytes (l : List Nat) : Nat :=
  l.foldl (fun acc b => acc * 256 + b) 0

/-- `<int>::to_be_bytes` for an `n`-byte integer type: the `n` big-endian
bytes of `x`. -/
def to_be_bytes : Nat → Nat → List Nat
  | 0, _ => []
  | n + 1, x => to_be_bytes n (x / 256) ++ [x % 256]

/-- The bit length of a natural number (0 for 0), written with explicit
fuel so that it is structurally recursive; `bit_len_aux fuel x` is the bit
length whenever `x ≤ fuel`. -/
def bit_len_aux : Nat → Nat → Nat
  | 0, _ => 0
  | fuel + 1, x => if x = 0 then 0 else bit_len_aux fuel (x / 2) + 1

/-- The bit length of a natural number. -/
def bit_len (x : Nat) : Nat :=
  bit_len_aux x x

/-- `<int>::leading_zeros()` for a `bits`-wide integer type: the width minus
the bit length of the value. -/
def leading_zeros (bits x : Nat) : Nat :=
  bits - bit_len x

/-- `to_be_bytes_trimmed` from `src/header.rs`: the 8 big-endian `usize`
bytes with the run of leading zero bytes removed. -/
def to_be_bytes_trimmed (x : Nat) : List Nat :=
  (to_be_bytes 8 x).dropWhile (· == 0)

/-- `length_of_length` from `src/header.rs`. -/
def length_of_length (payload_length : Nat) : Nat :=
  if payload_length ≤ MAX_SHORT_LEN then 1
  else 1 + (USIZE_BITS / 8) - leading_zeros USIZE_BITS payload_length / 8

/-- `Header::decode` from `src/header.rs`, parametrised by the platform word
size in bits; `usize::try_from(u64)` fails exactly when the value is at least
`2 ^ usizeBits`, and the source maps that failure to `UnexpectedLength`.
The byte ranges of the source `match` are rendered as an if-chain in the
same order; the `unreachable_unchecked` guard on `len_of_len` is a no-op for
byte inputs (`b < 256`) and is omitted. -/
def Header.decodeAt (usizeBits : Nat) (buf : List Nat) : Except Err (Header × List Nat) :=
  match get_next_byte buf with
  | .error e => .error e
  | .ok b =>
    let step : Except Err (Bool × Nat × List Nat) :=
      if b ≤ 0x7F then
        .ok (false, 1, buf)
      else if b ≤ LONG_STRING_OFFSET then
        let buf1 := buf.tail
        let payload_length := b - EMPTY_STRING_CODE
        if payload_length = 1 then
          match get_next_byte buf1 with
          | .error e => .error e
          | .ok nb =>
            if nb < EMPTY_STRING_CODE then .error .NonCanonicalSingleByte
            else .ok (false, payload_length, buf1)
        else .ok (false, payload_length, buf1)
      else if b ≤ 0xBF ∨ 0xF8 ≤ b then
        let buf1 := buf.tail
        let list : Bool := decide (0xF8 ≤ b)
        let offset := if list then LONG_LIST_OFFSET else LONG_STRING_OFFSET
        let len_of_len := b - offset
        if buf1.length < len_of_len then .error .InputTooShort
        else
          match static_left_pad 8 (buf1.take len_of_len) with
          | .error e => .error e
          | .ok padded =>
            let len := u64_from_be_bytes padded
            if 2 ^ usizeBits ≤ len then .error .UnexpectedLength
            else if len ≤ MAX_SHORT_LEN then .error .NonCanonicalSize
            else .ok (list, len, buf1.drop len_of_len)
      else
        .ok (true, b - EMPTY_LIST_CODE, buf.tail)
    match step with
    | .error e => .error e
    | .ok (list, payload_length, buf1) =>
      if buf1.length < payload_length then .error .InputTooShort
      else .ok (Header.newAt usizeBits list payload_length, buf1)

/-- `Header::decode` on the reference 64-bit platform. -/
def Header.decode (buf : List Nat) : Except Err (Header × List Nat) :=
  Header.decodeAt USIZE_BITS buf

/-- `Header::encode` from `src/header.rs`. -/
def Header.encode (h : Header) : List Nat :=
  let payload_length := h.payload_length
  if payload_length ≤ MAX_SHORT_LEN then
    let offset := if h.list then EMPTY_LIST_CODE else EMPTY_STRING_CODE
    [offset + payload_length]
  else
    let len_be := to_be_bytes_trimmed payload_length
    let offset := if h.list then LONG_LIST_OFFSET else LONG_STRING_OFFSET
    (offset + len_be.length) :: len_be

/-- `Header::decode_bytes` from `src/header.rs`: decode a header, demand the
expected shape, then split off exactly `payload_length` payload bytes. -/
def Header.decode_bytes (buf : List Nat) (list : Bool) : Except Err (List Nat × List Nat) :=
  match Header.decode buf with
  | .error e => .error e
  | .ok (header, buf1) =>
    if header.list != list then
      .error (if list then .UnexpectedString else .UnexpectedList)
    else
      let payload_length := header.payload_length
      if buf1.length < payload_length then .error .InputTooShort
      else .ok (buf1.take payload_length, buf1.drop payload_length)

/-- `Header::length` from `src/header.rs`. -/
def Header.length (h : Header) : Nat :=
  length_of_length h.payload_length

/-- `impl_uint` `length()` from `src/encode.rs`, for a `W`-byte unsigned
integer type (`W ∈ {1, 2, 4, 8, 16}` for `u8`..`u128` and `usize`). -/
def uint_length (W x : Nat) : Nat :=
  if x < EMPTY_STRING_CODE then 1
  else 1 + W - leading_zeros (8 * W) x / 8

/-- `impl_uint` `encode()` from `src/encode.rs`: `0x80` for zero, the bare
byte for `0 < x < 0x80`, otherwise `0x80 + len` followed by the big-endian
bytes with the leading zero bytes dropped (`to_be_bytes_trimmed!`). -/
def uint_encode (W x : Nat) : List Nat :=
  if x = 0 then [EMPTY_STRING_CODE]
  else if x < EMPTY_STRING_CODE then [x]
  else
    let be := (to_be_bytes W x).drop (leading_zeros (8 * W) x / 8)
    (EMPTY_STRING_CODE + be.length) :: be

/-- `<[u8] as Encodable>::length` from `src/encode.rs`. -/
def bytes_length (self : List Nat) : Nat :=
  let len := self.length
  if len ≠ 1 ∨ EMPTY_STRING_CODE ≤ self.headD 0 then len + length_of_length len
  else len

/-- `<[u8] as Encodable>::encode` from `src/encode.rs`: a header unless the
slice is a single byte below `0x80`, then the slice itself. -/
def bytes_encode (self : List Nat) : List Nat :=
  if self.length ≠ 1 ∨ EMPTY_STRING_CODE ≤ self.headD 0 then
    (Header.new false self.length).encode ++ self
  else self

/-- `<str as Encodable>::length` from `src/encode.rs` (the byte view). -/
def str_length (s : List Nat) : Nat :=
  bytes_length s

/-- `<str as Encodable>::encode` from `src/encode.rs` (the byte view). -/
def str_encode (s : List Nat) : List Nat :=
  bytes_encode s

/-- `list_header` from `src/encode.rs`, with the element `length()` passed
explicitly in place of the `Encodable` bound. -/
def list_header (len : α → Nat) (values : List α) : Header :=
  Header.new true (values.foldl (fun acc v => acc + len v) 0)

/-- `encode_list` from `src/encode.rs`. -/
def encode_list (enc : α → List Nat) (len : α → Nat) (values : List α) : List Nat :=
  (list_header len values).encode ++ (values.map enc).flatten

/-- `list_length` from `src/encode.rs`. -/
def list_length (len : α → Nat) (values : List α) : Nat :=
  let h := list_header len values
  h.payload_length + h.length

/-- `encode_iter` from `src/encode.rs`: the header is accumulated by folding
`Header::new(true, h.payload_length() + t.length())` starting from
`Header { packed: 0 }`, then the elements are emitted in order. -/
def encode_iter (enc : α → List Nat) (len : α → Nat) (values : List α) : List Nat :=
  let h := values.foldl (fun h t => Header.new true (h.payload_length + len t)) ⟨0⟩
  h.encode ++ (values.map enc).flatten

/-- `<Vec<T> as Encodable>::length` from `src/encode.rs`. -/
def vec_length (len : α → Nat) (values : List α) : Nat :=
  list_length len values

/-- `<Vec<T> as Encodable>::encode` from `src/encode.rs`. -/
def vec_encode (enc : α → List Nat) (len : α → Nat) (values : List α) : List Nat :=
  encode_list enc len values

/-- `<PhantomData<T> as Encodable>::length` from `src/encode.rs`. -/
def phantom_length : Nat := 0

/-- `<PhantomData<T> as Encodable>::encode` from `src/encode.rs`. -/
def phantom_encode : List Nat := []

/-- `decode_integer!` from `src/decode.rs`, for a `W`-byte unsigned integer
type: a string payload, left-padded to the width and read big-endian. -/
def uint_decode (W : Nat) (buf : List Nat) : Except Err (Nat × List Nat) :=
  match Header.decode_bytes buf false with
  | .error e => .error e
  | .ok (bytes, buf1) =>
    match static_left_pad W bytes with
    | .error e => .error e
    | .ok padded => .ok (u64_from_be_bytes padded, buf1)

/-- `<bool as Decodable>::decode` from `src/decode.rs`: decode a `u8` and
accept only 0 or 1; any other value is mapped to `InputTooShort`. -/
def bool_decode (buf : List Nat) : Except Err (Bool × List Nat) :=
  match uint_decode 1 buf with
  | .error e => .error e
  | .ok (0, buf1) => .ok (false, buf1)
  | .ok (1, buf1) => .ok (true, buf1)
  | .ok _ => .error .InputTooShort

/-- `<[u8; N] as Decodable>::decode` from `src/decode.rs`: a string payload
of exactly `N` bytes, else `UnexpectedLength`. -/
def array_decode (N : Nat) (buf : List Nat) : Except Err (List Nat × List Nat) :=
  match Header.decode_bytes buf false with
  | .error e => .error e
  | .ok (bytes, buf1) =>
    if bytes.length = N then .ok (bytes, buf1) else .error .UnexpectedLength

/-- `<Bytes as Decodable>::decode` from `src/decode.rs` (the payload copied
out; the copy is the identity in this model). -/
def bytes_decode (buf : List Nat) : Except Err (List Nat × List Nat) :=
  Header.decode_bytes buf false

/-- Modelled from the spec: the UTF-8 validity check that `core::str::from_utf8`
performs inside `Header::decode_str`; the standard library validator is not
part of this repository. Follows RFC 3629: ASCII, two-byte forms `C2..DF`,
three-byte forms `E0..EF` excluding overlongs and surrogates, four-byte
forms `F0..F4` up to `U+10FFFF`, continuation bytes in `80..BF`. -/
def utf8_valid : List Nat → Bool
  | [] => true
  | b :: rest =>
    if b ≤ 0x7F then utf8_valid rest
    else if 0xC2 ≤ b ∧ b ≤ 0xDF then
      match rest with
      | c1 :: r => 0x80 ≤ c1 && c1 ≤ 0xBF && utf8_valid r
      | [] => false
    else if 0xE0 ≤ b ∧ b ≤ 0xEF then
      match rest with
      | c1 :: c2 :: r =>
        (if b = 0xE0 then 0xA0 ≤ c1 && c1 ≤ 0xBF
         else if b = 0xED then 0x80 ≤ c1 && c1 ≤ 0x9F
         else 0x80 ≤ c1 && c1 ≤ 0xBF) &&
        (0x80 ≤ c2 && c2 ≤ 0xBF) && utf8_valid r
      | _ => false
    else if 0xF0 ≤ b ∧ b ≤ 0xF4 then
      match rest with
      | c1 :: c2 :: c3 :: r =>
        (if b = 0xF0 then 0x90 ≤ c1 && c1 ≤ 0xBF
         else if b = 0xF4 then 0x80 ≤ c1 && c1 ≤ 0x8F
         else 0x80 ≤ c1 && c1 ≤ 0xBF) &&
        (0x80 ≤ c2 && c2 ≤ 0xBF) && (0x80 ≤ c3 && c3 ≤ 0xBF) && utf8_valid r
      | _ => false
    else false

/-- `Header::decode_str` from `src/header.rs`: `decode_bytes` with the
string shape, then UTF-8 validation (`UnexpectedString` on failure). -/
def Header.decode_str (buf : List Nat) : Except Err (List Nat × List Nat) :=
  match Header.decode_bytes buf false with
  | .error e => .error e
  | .ok (bytes, buf1) =>
    if utf8_valid bytes then .ok (bytes, buf1) else .error .UnexpectedString

/-- `<String as Decodable>::decode` from `src/decode.rs`. -/
def string_decode (buf : List Nat) : Except Err (List Nat × List Nat) :=
  Header.decode_str buf

/-- The `while !bytes.is_empty()` loop of `<Vec<T> as Decodable>::decode`
from `src/decode.rs`, with explicit fuel; the fuel is set to the payload
length, which suffices because every element decoder used here consumes at
least one byte on success. -/
def vec_decode_loop (dec : List Nat → Except Err (α × List Nat)) :
    Nat → List Nat → Except Err (List α)
  | _, [] => .ok []
  | 0, _ :: _ => .error .InputTooShort
  | fuel + 1, b :: rest =>
    match dec (b :: rest) with
    | .error e => .error e
    | .ok (a, next) =>
      match vec_decode_loop dec fuel next with
      | .error e => .error e
      | .ok as_ => .ok (a :: as_)

/-- `<Vec<T> as Decodable>::decode` from `src/decode.rs`: a list payload
drained element by element until empty. -/
def vec_decode (dec : List Nat → Except Err (α × List Nat)) (buf : List Nat) :
    Except Err (List α × List Nat) :=
  match Header.decode_bytes buf true with
  | .error e => .error e
  | .ok (bytes, buf1) =>
    match vec_decode_loop dec bytes.length bytes with
    | .error e => .error e
    | .ok values => .ok (values, buf1)

/-- `decode_exact` from `src/decode.rs`: decode one value, then demand an
empty cursor (`UnexpectedLength` otherwise). -/
def decode_exact (dec : List Nat → Except Err (α × List Nat)) (bytes : List Nat) :
    Except Err α :=
  match dec bytes with
  | .error e => .error e
  | .ok (out, buf) =>
    if buf ≠ [] then .error .UnexpectedLength else .ok out

/-- Modelled from the spec: `bool` encoding. The repository implements
`Decodable` for `bool` but no `Encodable for bool` appears in `src/`; the
spec fixes the encoding as the single-byte integers 0 and 1, i.e. the `u8`
encoding of 0 or 1. -/
def bool_encode (b : Bool) : List Nat :=
  uint_encode 1 (if b then 1 else 0)

/-- Modelled from the spec: `[u8; N]` encoding. The repository implements
`Decodable` for `[u8; N]` but no `Encodable for [u8; N]` appears in `src/`;
the spec routes fixed-width byte arrays through the byte-slice rule. -/
def array_encode (self : List Nat) : List Nat :=
  bytes_encode self

/-- The minimal (leading-zero-free) big-endian byte string of a natural
number, written with explicit fuel so that it is structurally recursive;
`minimal_be_aux fuel x` is that byte string whenever `x ≤ fuel`. This is the
spec-side description "the big-endian bytes of x, strip leading zeros" used
to state the claims. -/
def minimal_be_aux : Nat → Nat → List Nat
  | 0, _ => []
  | fuel + 1, x => if x = 0 then [] else minimal_be_aux fuel (x / 256) ++ [x % 256]

/-- The minimal big-endian byte string of a natural number. -/
def minimal_be (x : Nat) : List Nat :=
  minimal_be_aux x x

theorem bit_len_aux_irrel (fuel1 : Nat) :
    ∀ fuel2 x, x ≤ fuel1 → x ≤ fuel2 → bit_len_aux fuel1 x = bit_len_aux fuel2 x := by
  induction fuel1 with
  | zero =>
    intro fuel2 x h1 _
    interval_cases x
    cases fuel2 <;> simp [bit_len_aux]
  | succ f1 ih =>
    intro fuel2 x h1 h2
    by_cases hx : x = 0
    · subst hx
      cases fuel2 <;> simp [bit_len_aux]
    · have hx1 : 1 ≤ x := Nat.one_le_iff_ne_zero.mpr hx
      cases fuel2 with
      | zero => omega
      | succ f2 =>
        simp only [bit_len_aux, if_neg hx]
        rw [ih f2 (x / 2) (by omega) (by omega)]

theorem bit_len_zero : bit_len 0 = 0 := rfl

theorem bit_len_pos (x : Nat) (hx : 0 < x) : bit_len x = bit_len (x / 2) + 1 := by
  have hx1 : 1 ≤ x := hx
  unfold bit_len
  cases x with
  | zero => omega
  | succ n =>
    simp only [bit_len_aux, Nat.succ_ne_zero, if_false]
    rw [bit_len_aux_irrel n ((n + 1) / 2) ((n + 1) / 2) (by omega) (le_refl _)]

theorem bit_len_le_iff (x : Nat) : ∀ k, bit_len x ≤ k ↔ x < 2 ^ k := by
  induction x using Nat.strong_induction_on with
  | _ x ih =>
    intro k
    by_cases hx : x = 0
    · subst hx
      simp [bit_len_zero, Nat.pos_pow_of_pos]
    · have hx0 : 0 < x := Nat.pos_of_ne_zero hx
      rw [bit_len_pos x hx0]
      cases k with
      | zero =>
        simp only [pow_zero]
        omega
      | succ k =>
        have hrec := ih (x / 2) (Nat.div_lt_self hx0 (by omega)) k
        have hpow : (2 : Nat) ^ (k + 1) = 2 ^ k * 2 := by ring
        rw [hpow]
        constructor
        · intro h
          have : x / 2 < 2 ^ k := hrec.mp (by omega)
          omega
        · intro h
          have : x / 2 < 2 ^ k := by omega
          have := hrec.mpr this
          omega

theorem bit_len_bounds (x : Nat) (hx : 0 < x) :
    2 ^ (bit_len x - 1) ≤ x ∧ x < 2 ^ bit_len x := by
  constructor
  · by_contra h
    push_neg at h
    have := (bit_len_le_iff x (bit_len x - 1)).mpr h
    have hb : 0 < bit_len x := by
      by_contra hb
      push_neg at hb
      have : bit_len x = 0 := by omega
      have := (bit_len_le_iff x 0).mp (by omega)
      simp at this
      omega
    omega
  · exact (bit_len_le_iff x (bit_len x)).mp (le_refl _)

theorem minimal_be_aux_irrel (fuel1 : Nat) :
    ∀ fuel2 x, x ≤ fuel1 → x ≤ fuel2 → minimal_be_aux fuel1 x = minimal_be_aux fuel2 x := by
  induction fuel1 with
  | zero =>
    intro fuel2 x h1 _
    interval_cases x
    cases fuel2 <;> simp [minimal_be_aux]
  | succ f1 ih =>
    intro fuel2 x h1 h2
    by_cases hx : x = 0
    · subst hx
      cases fuel2 <;> simp [minimal_be_aux]
    · have hx1 : 1 ≤ x := Nat.one_le_iff_ne_zero.mpr hx
      cases fuel2 with
      | zero => omega
      | succ f2 =>
        simp only [minimal_be_aux, if_neg hx]
        rw [ih f2 (x / 256) (by omega) (by omega)]

theorem minimal_be_zero : minimal_be 0 = [] := rfl

theorem minimal_be_pos (x : Nat) (hx : 0 < x) :
    minimal_be x = minimal_be (x / 256) ++ [x % 256] := by
  unfold minimal_be
  cases x with
  | zero => omega
  | succ n =>
    simp only [minimal_be_aux, if_neg (Nat.succ_ne_zero n)]
    rw [minimal_be_aux_irrel n ((n + 1) / 256) ((n + 1) / 256) (by omega) (le_refl _)]

theorem minimal_be_len_le_iff (x : Nat) : ∀ k, (minimal_be x).length ≤ k ↔ x < 256 ^ k := by
  induction x using Nat.strong_induction_on with
  | _ x ih =>
    intro k
    by_cases hx : x = 0
    · subst hx
      simp [minimal_be_zero, Nat.pos_pow_of_pos]
    · have hx0 : 0 < x := Nat.pos_of_ne_zero hx
      rw [minimal_be_pos x hx0]
      simp only [List.length_append, List.length_singleton]
      cases k with
      | zero =>
        simp only [pow_zero]
        omega
      | succ k =>
        have hrec := ih (x / 256) (Nat.div_lt_self hx0 (by omega)) k
        have hpow : (256 : Nat) ^ (k + 1) = 256 ^ k * 256 := by ring
        rw [hpow]
        constructor
        · intro h
          have : x / 256 < 256 ^ k := hrec.mp (by omega)
          omega
        · intro h
          have : x / 256 < 256 ^ k := by omega
          have := hrec.mpr this
          omega

theorem minimal_be_bytes_lt (x : Nat) : ∀ b ∈ minimal_be x, b < 256 := by
  induction x using Nat.strong_induction_on with
  | _ x ih =>
    by_cases hx : x = 0
    · subst hx
      simp [minimal_be_zero]
    · have hx0 : 0 < x := Nat.pos_of_ne_zero hx
      rw [minimal_be_pos x hx0]
      intro b hb
      rcases List.mem_append.mp hb with h | h
      · exact ih (x / 256) (Nat.div_lt_self hx0 (by omega)) b h
      · simp only [List.mem_singleton] at h
        subst h
        exact Nat.mod_lt x (by omega)

theorem minimal_be_head_ne_zero (x : Nat) (hx : 0 < x) :
    ∀ d t, minimal_be x = d :: t → d ≠ 0 := by
  induction x using Nat.strong_induction_on with
  | _ x ih =>
    intro d t heq
    rw [minimal_be_pos x hx] at heq
    by_cases hq : x / 256 = 0
    · rw [hq, minimal_be_zero, List.nil_append] at heq
      have hd : d = x % 256 := by
        injection heq with h1 _
        exact h1.symm
      subst hd
      have hlt : x < 256 := by omega
      rw [Nat.mod_eq_of_lt hlt]
      omega
    · have hq0 : 0 < x / 256 := Nat.pos_of_ne_zero hq
      rcases hmb : minimal_be (x / 256) with _ | ⟨d2, t2⟩
      · rw [hmb, List.nil_append] at heq
        rw [minimal_be_pos (x / 256) hq0] at hmb
        exact absurd hmb (by simp)
      · rw [hmb, List.cons_append] at heq
        injection heq with h1 h2
        subst h1
        exact ih (x / 256) (Nat.div_lt_self hx (by omega)) hq0 d2 t2 hmb

theorem u64_from_be_bytes_append (l1 l2 : List Nat) :
    u64_from_be_bytes (l1 ++ l2) =
      l2.foldl (fun acc b => acc * 256 + b) (u64_from_be_bytes l1) := by
  unfold u64_from_be_bytes
  rw [List.foldl_append]

theorem foldl_be_replicate_zero (k : Nat) :
    (List.replicate k 0).foldl (fun acc b => acc * 256 + b) 0 = 0 := by
  induction k with
  | zero => rfl
  | succ n ih => simpa [List.replicate_succ, List.foldl_cons] using ih

theorem u64_from_be_bytes_pad (k : Nat) (l : List Nat) :
    u64_from_be_bytes (List.replicate k 0 ++ l) = u64_from_be_bytes l := by
  unfold u64_from_be_bytes
  rw [List.foldl_append, foldl_be_replicate_zero]

theorem u64_from_be_bytes_minimal_be (x : Nat) : u64_from_be_bytes (minimal_be x) = x := by
  induction x using Nat.strong_induction_on with
  | _ x ih =>
    by_cases hx : x = 0
    · subst hx
      rfl
    · have hx0 : 0 < x := Nat.pos_of_ne_zero hx
      rw [minimal_be_pos x hx0, u64_from_be_bytes_append]
      simp only [List.foldl_cons, List.foldl_nil]
      rw [ih (x / 256) (Nat.div_lt_self hx0 (by omega))]
      omega

theorem to_be_bytes_length (n : Nat) : ∀ x, (to_be_bytes n x).length = n := by
  induction n with
  | zero => intro x; rfl
  | succ m ih =>
    intro x
    simp only [to_be_bytes, List.length_append, List.length_singleton, ih]

theorem to_be_bytes_zero_cons (n : Nat) :
    ∀ x, x < 256 ^ n → to_be_bytes (n + 1) x = 0 :: to_be_bytes n x := by
  induction n with
  | zero =>
    intro x hx
    simp only [pow_zero] at hx
    interval_cases x
    rfl
  | succ m ih =>
    intro x hx
    have hdiv : x / 256 < 256 ^ m := by
      rw [Nat.div_lt_iff_lt_mul (by omega)]
      calc x < 256 ^ (m + 1) := hx
        _ = 256 ^ m * 256 := by ring
    show to_be_bytes (m + 1) (x / 256) ++ [x % 256] = 0 :: to_be_bytes (m + 1) x
    rw [ih (x / 256) hdiv]
    rfl

theorem to_be_bytes_replicate (k : Nat) :
    ∀ n x, x < 256 ^ n → to_be_bytes (n + k) x = List.replicate k 0 ++ to_be_bytes n x := by
  induction k with
  | zero => intro n x _; rfl
  | succ m ih =>
    intro n x hx
    have h1 : n + (m + 1) = (n + m) + 1 := by ring
    rw [h1, to_be_bytes_zero_cons (n + m) x
      (lt_of_lt_of_le hx (Nat.pow_le_pow_right (by omega) (by omega))), ih n x hx]
    rfl

theorem to_be_bytes_minimal (x : Nat) :
    to_be_bytes (minimal_be x).length x = minimal_be x := by
  induction x using Nat.strong_induction_on with
  | _ x ih =>
    by_cases hx : x = 0
    · subst hx
      rfl
    · have hx0 : 0 < x := Nat.pos_of_ne_zero hx
      rw [minimal_be_pos x hx0]
      simp only [List.length_append, List.length_singleton]
      show to_be_bytes ((minimal_be (x / 256)).length + 1) x = minimal_be (x / 256) ++ [x % 256]
      show to_be_bytes (minimal_be (x / 256)).length (x / 256) ++ [x % 256] =
        minimal_be (x / 256) ++ [x % 256]
      rw [ih (x / 256) (Nat.div_lt_self hx0 (by omega))]

theorem to_be_bytes_decomp (W x : Nat) (hx : x < 256 ^ W) :
    to_be_bytes W x = List.replicate (W - (minimal_be x).length) 0 ++ minimal_be x := by
  have hL : (minimal_be x).length ≤ W := (minimal_be_len_le_iff x W).mpr hx
  have hW : W = (minimal_be x).length + (W - (minimal_be x).length) := by omega
  rw [hW, to_be_bytes_replicate (W - (minimal_be x).length) (minimal_be x).length x
    (by rw [← minimal_be_len_le_iff x]), to_be_bytes_minimal]
  congr 2
  omega

theorem pow_256_eq (k : Nat) : (256 : Nat) ^ k = 2 ^ (8 * k) := by
  rw [pow_mul]
  norm_num

theorem minimal_be_len_pos (x : Nat) (hx : 0 < x) : 0 < (minimal_be x).length := by
  by_contra h
  push_neg at h
  have := (minimal_be_len_le_iff x 0).mp (by omega)
  simp at this
  omega

theorem lz_div8 (W x : Nat) (hx : 0 < x) (hxW : x < 256 ^ W) :
    leading_zeros (8 * W) x / 8 = W - (minimal_be x).length := by
  set q := bit_len x with hq
  set L := (minimal_be x).length with hL
  have hLpos : 0 < L := minimal_be_len_pos x hx
  have hqpos : 0 < q := by
    by_contra h
    push_neg at h
    have := (bit_len_le_iff x 0).mp (by omega)
    simp at this
    omega
  obtain ⟨hq1, hq2⟩ := bit_len_bounds x hx
  have hxL : 256 ^ (L - 1) ≤ x := by
    by_contra h
    push_neg at h
    have := (minimal_be_len_le_iff x (L - 1)).mpr h
    omega
  have hxLup : x < 256 ^ L := by
    rw [← minimal_be_len_le_iff x]
  have hLW : L ≤ W := (minimal_be_len_le_iff x W).mpr hxW
  have h1 : 8 * (L - 1) < q := by
    have hle : (2 : Nat) ^ (8 * (L - 1)) < 2 ^ q := by
      calc (2 : Nat) ^ (8 * (L - 1)) = 256 ^ (L - 1) := (pow_256_eq (L - 1)).symm
        _ ≤ x := hxL
        _ < 2 ^ q := hq2
    exact (Nat.pow_lt_pow_iff_right (by omega)).mp hle
  have h2 : q ≤ 8 * L := by
    have hle : (2 : Nat) ^ (q - 1) < 2 ^ (8 * L) := by
      calc (2 : Nat) ^ (q - 1) ≤ x := hq1
        _ < 256 ^ L := hxLup
        _ = 2 ^ (8 * L) := pow_256_eq L
    have := (Nat.pow_lt_pow_iff_right (a := 2) (by omega)).mp hle
    omega
  unfold leading_zeros
  omega

theorem drop_replicate_append (k : Nat) (l : List Nat) :
    (List.replicate k 0 ++ l).drop k = l := by
  have h := List.drop_left (List.replicate k (0 : Nat)) l
  simpa using h

theorem uint_encode_big (W x : Nat) (hx : EMPTY_STRING_CODE ≤ x) (hxW : x < 256 ^ W) :
    uint_encode W x = (EMPTY_STRING_CODE + (minimal_be x).length) :: minimal_be x := by
  have hx0 : x ≠ 0 := by
    unfold EMPTY_STRING_CODE at hx
    omega
  have hxlt : ¬x < EMPTY_STRING_CODE := by omega
  unfold uint_encode
  rw [if_neg hx0, if_neg hxlt]
  have hdrop : (to_be_bytes W x).drop (leading_zeros (8 * W) x / 8) = minimal_be x := by
    rw [lz_div8 W x (Nat.pos_of_ne_zero hx0) hxW,
      to_be_bytes_decomp W x hxW, drop_replicate_append]
  rw [hdrop]

theorem dropWhile_zero_replicate (k : Nat) (l : List Nat) :
    (List.replicate k 0 ++ l).dropWhile (· == 0) = l.dropWhile (· == 0) := by
  induction k with
  | zero => rfl
  | succ n ih => simpa [List.replicate_succ] using ih

theorem dropWhile_minimal_be (x : Nat) :
    (minimal_be x).dropWhile (· == 0) = minimal_be x := by
  rcases hmb : minimal_be x with _ | ⟨d, t⟩
  · rfl
  · have hx : 0 < x := by
      by_contra h
      push_neg at h
      interval_cases x
      rw [minimal_be_zero] at hmb
      exact absurd hmb (by simp)
    have hd : d ≠ 0 := minimal_be_head_ne_zero x hx d t hmb
    rw [List.dropWhile_cons_of_neg]
    simpa using hd

theorem to_be_bytes_trimmed_eq (x : Nat) (hx : 0 < x) (hx8 : x < 256 ^ 8) :
    to_be_bytes_trimmed x = minimal_be x := by
  unfold to_be_bytes_trimmed
  rw [to_be_bytes_decomp 8 x hx8, dropWhile_zero_replicate, dropWhile_minimal_be]

theorem Header.encode_new_short (l : Bool) (pl : Nat) (hpl : pl ≤ MAX_SHORT_LEN) :
    (Header.new l pl).encode = [(if l then EMPTY_LIST_CODE else EMPTY_STRING_CODE) + pl] := by
  have hpl63 : pl < 2 ^ 63 := by
    unfold MAX_SHORT_LEN at hpl
    calc pl ≤ 55 := hpl
      _ < 2 ^ 63 := by norm_num
  unfold Header.encode
  rw [Header.new_payload_length l pl hpl63, if_pos hpl, Header.new_list l pl hpl63]

theorem Header.encode_new_long (l : Bool) (pl : Nat) (hpl : MAX_SHORT_LEN < pl)
    (hpl63 : pl < 2 ^ 63) :
    (Header.new l pl).encode =
      ((if l then LONG_LIST_OFFSET else LONG_STRING_OFFSET) + (minimal_be pl).length)
        :: minimal_be pl := by
  unfold Header.encode
  rw [Header.new_payload_length l pl hpl63, if_neg (by omega), Header.new_list l pl hpl63,
    to_be_bytes_trimmed_eq pl (by unfold MAX_SHORT_LEN at hpl; omega)
      (by calc pl < 2 ^ 63 := hpl63
            _ < 256 ^ 8 := by norm_num)]

theorem Header.encode_new_short_str (pl : Nat) (hpl : pl ≤ MAX_SHORT_LEN) :
    (Header.new false pl).encode = [EMPTY_STRING_CODE + pl] := by
  rw [Header.encode_new_short false pl hpl]
  simp

theorem Header.encode_new_short_list (pl : Nat) (hpl : pl ≤ MAX_SHORT_LEN) :
    (Header.new true pl).encode = [EMPTY_LIST_CODE + pl] := by
  rw [Header.encode_new_short true pl hpl]
  simp

theorem Header.encode_new_long_str (pl : Nat) (hpl : MAX_SHORT_LEN < pl)
    (hpl63 : pl < 2 ^ 63) :
    (Header.new false pl).encode =
      (LONG_STRING_OFFSET + (minimal_be pl).length) :: minimal_be pl := by
  rw [Header.encode_new_long false pl hpl hpl63]
  simp

theorem Header.encode_new_long_list (pl : Nat) (hpl : MAX_SHORT_LEN < pl)
    (hpl63 : pl < 2 ^ 63) :
    (Header.new true pl).encode =
      (LONG_LIST_OFFSET + (minimal_be pl).length) :: minimal_be pl := by
  rw [Header.encode_new_long true pl hpl hpl63]
  simp

theorem length_of_length_eq (pl : Nat) (hpl : MAX_SHORT_LEN < pl) (hpl64 : pl < 256 ^ 8) :
    length_of_length pl = 1 + (minimal_be pl).length := by
  unfold length_of_length
  rw [if_neg (by omega)]
  have hpos : 0 < pl := by
    unfold MAX_SHORT_LEN at hpl
    omega
  have hL8 : (minimal_be pl).length ≤ 8 := (minimal_be_len_le_iff pl 8).mpr hpl64
  have h64 : USIZE_BITS = 8 * 8 := by rfl
  rw [h64, lz_div8 8 pl hpos hpl64]
  omega

theorem Header.encode_new_length (l : Bool) (pl : Nat) (hpl63 : pl < 2 ^ 63) :
    (Header.new l pl).encode.length = length_of_length pl := by
  by_cases hpl : pl ≤ MAX_SHORT_LEN
  · rw [Header.encode_new_short l pl hpl]
    unfold length_of_length
    rw [if_pos hpl]
    rfl
  · push_neg at hpl
    rw [Header.encode_new_long l pl hpl hpl63, length_of_length_eq pl hpl
      (by calc pl < 2 ^ 63 := hpl63
            _ < 256 ^ 8 := by norm_num)]
    simp [Nat.add_comm]

theorem Header.decodeAt_single (w b : Nat) (rest : List Nat) (hb : b ≤ 0x7F) :
    Header.decodeAt w (b :: rest) = .ok (Header.newAt w false 1, b :: rest) := by
  simp [Header.decodeAt, get_next_byte, hb]

theorem Header.decode_single (b : Nat) (rest : List Nat) (hb : b ≤ 0x7F) :
    Header.decode (b :: rest) = .ok (Header.new false 1, b :: rest) :=
  Header.decodeAt_single USIZE_BITS b rest hb

theorem Header.decodeAt_short_str (w b : Nat) (rest : List Nat)
    (hb1 : EMPTY_STRING_CODE ≤ b) (hb2 : b ≤ LONG_STRING_OFFSET) (hb3 : b ≠ 0x81) :
    Header.decodeAt w (b :: rest) =
      if rest.length < b - EMPTY_STRING_CODE then .error .InputTooShort
      else .ok (Header.newAt w false (b - EMPTY_STRING_CODE), rest) := by
  unfold EMPTY_STRING_CODE at hb1
  unfold LONG_STRING_OFFSET at hb2
  have hne : ¬b ≤ 0x7F := by omega
  have hpl : b - EMPTY_STRING_CODE ≠ 1 := by
    unfold EMPTY_STRING_CODE
    omega
  simp [Header.decodeAt, get_next_byte, hne, hb2, hpl, LONG_STRING_OFFSET]

theorem Header.decode_short_str (b : Nat) (rest : List Nat)
    (hb1 : EMPTY_STRING_CODE ≤ b) (hb2 : b ≤ LONG_STRING_OFFSET) (hb3 : b ≠ 0x81) :
    Header.decode (b :: rest) =
      if rest.length < b - EMPTY_STRING_CODE then .error .InputTooShort
      else .ok (Header.new false (b - EMPTY_STRING_CODE), rest) :=
  Header.decodeAt_short_str USIZE_BITS b rest hb1 hb2 hb3

theorem Header.decodeAt_single_prefixed (w : Nat) (rest : List Nat) :
    Header.decodeAt w (0x81 :: rest) =
      match rest with
      | [] => .error .InputTooShort
      | nb :: rest2 =>
        if nb < EMPTY_STRING_CODE then .error .NonCanonicalSingleByte
        else .ok (Header.newAt w false 1, nb :: rest2) := by
  cases rest with
  | nil => simp [Header.decodeAt, get_next_byte, LONG_STRING_OFFSET, EMPTY_STRING_CODE]
  | cons nb rest2 =>
    by_cases hnb : nb < 128
    · simp [Header.decodeAt, get_next_byte, hnb, LONG_STRING_OFFSET, EMPTY_STRING_CODE]
    · simp [Header.decodeAt, get_next_byte, hnb, LONG_STRING_OFFSET, EMPTY_STRING_CODE]

theorem Header.decode_single_prefixed (rest : List Nat) :
    Header.decode (0x81 :: rest) =
      match rest with
      | [] => .error .InputTooShort
      | nb :: rest2 =>
        if nb < EMPTY_STRING_CODE then .error .NonCanonicalSingleByte
        else .ok (Header.new false 1, nb :: rest2) :=
  Header.decodeAt_single_prefixed USIZE_BITS rest

theorem Header.decodeAt_short_list (w b : Nat) (rest : List Nat)
    (hb1 : EMPTY_LIST_CODE ≤ b) (hb2 : b ≤ LONG_LIST_OFFSET) :
    Header.decodeAt w (b :: rest) =
      if rest.length < b - EMPTY_LIST_CODE then .error .InputTooShort
      else .ok (Header.newAt w true (b - EMPTY_LIST_CODE), rest) := by
  unfold EMPTY_LIST_CODE at hb1
  unfold LONG_LIST_OFFSET at hb2
  have h1 : ¬b ≤ 0x7F := by omega
  have h2 : ¬b ≤ LONG_STRING_OFFSET := by
    unfold LONG_STRING_OFFSET
    omega
  have h3 : ¬(b ≤ 0xBF ∨ 0xF8 ≤ b) := by omega
  simp [Header.decodeAt, get_next_byte, h1, h2, h3, EMPTY_LIST_CODE]

theorem Header.decode_short_list (b : Nat) (rest : List Nat)
    (hb1 : EMPTY_LIST_CODE ≤ b) (hb2 : b ≤ LONG_LIST_OFFSET) :
    Header.decode (b :: rest) =
      if rest.length < b - EMPTY_LIST_CODE then .error .InputTooShort
      else .ok (Header.new true (b - EMPTY_LIST_CODE), rest) :=
  Header.decodeAt_short_list USIZE_BITS b rest hb1 hb2

theorem Header.decodeAt_long_str (w b : Nat) (rest : List Nat)
    (hb1 : 0xB8 ≤ b) (hb2 : b ≤ 0xBF) :
    Header.decodeAt w (b :: rest) =
      (if rest.length < b - LONG_STRING_OFFSET then .error .InputTooShort
       else
         match static_left_pad 8 (rest.take (b - LONG_STRING_OFFSET)) with
         | .error e => .error e
         | .ok padded =>
           if 2 ^ w ≤ u64_from_be_bytes padded then .error .UnexpectedLength
           else if u64_from_be_bytes padded ≤ MAX_SHORT_LEN then .error .NonCanonicalSize
           else if (rest.drop (b - LONG_STRING_OFFSET)).length < u64_from_be_bytes padded
             then .error .InputTooShort
           else .ok (Header.newAt w false (u64_from_be_bytes padded),
             rest.drop (b - LONG_STRING_OFFSET))) := by
  have h1 : ¬b ≤ 0x7F := by omega
  have h2 : ¬b ≤ LONG_STRING_OFFSET := by
    unfold LONG_STRING_OFFSET
    omega
  have h3 : b ≤ 0xBF ∨ 0xF8 ≤ b := Or.inl hb2
  have h4 : ¬(0xF8 ≤ b) := by omega
  by_cases hlen : rest.length < b - LONG_STRING_OFFSET
  · simp [Header.decodeAt, get_next_byte, h1, h2, h3, h4, hb2, hlen]
  · rcases hpad : static_left_pad 8 (rest.take (b - LONG_STRING_OFFSET)) with e | padded
    · simp [Header.decodeAt, get_next_byte, h1, h2, h3, h4, hb2, hlen, hpad]
    · by_cases hov : 2 ^ w ≤ u64_from_be_bytes padded
      · simp [Header.decodeAt, get_next_byte, h1, h2, h3, h4, hb2, hlen, hpad, hov]
      · by_cases hnc : u64_from_be_bytes padded ≤ MAX_SHORT_LEN
        · simp [Header.decodeAt, get_next_byte, h1, h2, h3, h4, hb2, hlen, hpad, hov, hnc]
        · simp [Header.decodeAt, get_next_byte, h1, h2, h3, h4, hb2, hlen, hpad, hov, hnc]

theorem Header.decodeAt_long_list (w b : Nat) (rest : List Nat)
    (hb1 : 0xF8 ≤ b) (hb2 : b ≤ 0xFF) :
    Header.decodeAt w (b :: rest) =
      (if rest.length < b - LONG_LIST_OFFSET then .error .InputTooShort
       else
         match static_left_pad 8 (rest.take (b - LONG_LIST_OFFSET)) with
         | .error e => .error e
         | .ok padded =>
           if 2 ^ w ≤ u64_from_be_bytes padded then .error .UnexpectedLength
           else if u64_from_be_bytes padded ≤ MAX_SHORT_LEN then .error .NonCanonicalSize
           else if (rest.drop (b - LONG_LIST_OFFSET)).length < u64_from_be_bytes padded
             then .error .InputTooShort
           else .ok (Header.newAt w true (u64_from_be_bytes padded),
             rest.drop (b - LONG_LIST_OFFSET))) := by
  have h1 : ¬b ≤ 0x7F := by omega
  have h2 : ¬b ≤ LONG_STRING_OFFSET := by
    unfold LONG_STRING_OFFSET
    omega
  have h3 : b ≤ 0xBF ∨ 0xF8 ≤ b := Or.inr hb1
  have h5 : ¬b ≤ 0xBF := by omega
  by_cases hlen : rest.length < b - LONG_LIST_OFFSET
  · simp [Header.decodeAt, get_next_byte, h1, h2, h3, hb1, h5, hlen]
  · rcases hpad : static_left_pad 8 (rest.take (b - LONG_LIST_OFFSET)) with e | padded
    · simp [Header.decodeAt, get_next_byte, h1, h2, h3, hb1, h5, hlen, hpad]
    · by_cases hov : 2 ^ w ≤ u64_from_be_bytes padded
      · simp [Header.decodeAt, get_next_byte, h1, h2, h3, hb1, h5, hlen, hpad, hov]
      · by_cases hnc : u64_from_be_bytes padded ≤ MAX_SHORT_LEN
        · simp [Header.decodeAt, get_next_byte, h1, h2, h3, hb1, h5, hlen, hpad, hov, hnc]
        · simp [Header.decodeAt, get_next_byte, h1, h2, h3, hb1, h5, hlen, hpad, hov, hnc]

theorem static_left_pad_ok (N : Nat) (data : List Nat) (hlen : data.length ≤ N)
    (hhead : ∀ d t, data = d :: t → d ≠ 0) :
    static_left_pad N data = .ok (List.replicate (N - data.length) 0 ++ data) := by
  cases data with
  | nil =>
    unfold static_left_pad
    simp
  | cons d t =>
    have h1 : ¬(d :: t).length > N := by omega
    simp only [static_left_pad, if_neg h1, if_neg (hhead d t rfl)]

theorem static_left_pad_minimal_be (N x : Nat) (hx : x < 256 ^ N) :
    static_left_pad N (minimal_be x) =
      .ok (List.replicate (N - (minimal_be x).length) 0 ++ minimal_be x) := by
  apply static_left_pad_ok
  · exact (minimal_be_len_le_iff x N).mpr hx
  · intro d t heq
    have hx0 : 0 < x := by
      by_contra h
      push_neg at h
      interval_cases x
      rw [minimal_be_zero] at heq
      exact absurd heq (by simp)
    exact minimal_be_head_ne_zero x hx0 d t heq

theorem u64_from_be_bytes_pad_minimal (k x : Nat) :
    u64_from_be_bytes (List.replicate k 0 ++ minimal_be x) = x := by
  rw [u64_from_be_bytes_pad, u64_from_be_bytes_minimal_be]

theorem decode_bytes_unfold (buf buf1 : List Nat) (hd : Header) (expect : Bool)
    (hdec : Header.decode buf = .ok (hd, buf1)) :
    Header.decode_bytes buf expect =
      if hd.list != expect then
        .error (if expect then .UnexpectedString else .UnexpectedList)
      else if buf1.length < hd.payload_length then .error .InputTooShort
      else .ok (buf1.take hd.payload_length, buf1.drop hd.payload_length) := by
  unfold Header.decode_bytes
  rw [hdec]

/-- On success with the matching shape, `decode_bytes` yields exactly the
`payload_length`-byte slice and the cursor after it. -/
theorem decode_bytes_ok (buf buf1 : List Nat) (pl : Nat) (l expect : Bool)
    (hpl : pl < 2 ^ 63) (hlen : pl ≤ buf1.length) (hshape : l = expect)
    (hdec : Header.decode buf = .ok (Header.new l pl, buf1)) :
    Header.decode_bytes buf expect = .ok (buf1.take pl, buf1.drop pl) := by
  rw [decode_bytes_unfold buf buf1 (Header.new l pl) expect hdec,
    Header.new_list l pl hpl, Header.new_payload_length l pl hpl, hshape]
  simp only [bne_self_eq_false, Bool.false_eq_true, if_false]
  rw [if_neg (by omega)]

theorem minimal_be_single (x : Nat) (hx : 0 < x) (hx256 : x < 256) :
    minimal_be x = [x] := by
  rw [minimal_be_pos x hx, Nat.div_eq_of_lt hx256, minimal_be_zero,
    Nat.mod_eq_of_lt hx256, List.nil_append]

/-- Decoding a short-form string header (`0x80 + k`, `k ≠ 1`) followed by its
`k`-byte payload. -/
theorem decode_hdr_short_str (k : Nat) (payload extra : List Nat)
    (hk : payload.length = k) (hk55 : k ≤ MAX_SHORT_LEN) (hk1 : k ≠ 1) :
    Header.decode ((EMPTY_STRING_CODE + k) :: (payload ++ extra)) =
      .ok (Header.new false k, payload ++ extra) := by
  rw [Header.decode_short_str (EMPTY_STRING_CODE + k) (payload ++ extra)
    (by omega)
    (by unfold EMPTY_STRING_CODE LONG_STRING_OFFSET
        unfold MAX_SHORT_LEN at hk55
        omega)
    (by unfold EMPTY_STRING_CODE
        omega)]
  rw [Nat.add_sub_cancel_left, if_neg (by simp only [List.length_append]; omega)]

/-- Decoding the header `0x81` followed by a single payload byte at or above
`0x80`. -/
theorem decode_hdr_single_high (d : Nat) (extra : List Nat) (hd : EMPTY_STRING_CODE ≤ d) :
    Header.decode ((EMPTY_STRING_CODE + 1) :: (d :: extra)) =
      .ok (Header.new false 1, d :: extra) := by
  have h81 : EMPTY_STRING_CODE + 1 = 0x81 := by norm_num [EMPTY_STRING_CODE]
  have hnot : ¬d < EMPTY_STRING_CODE := by omega
  rw [h81, Header.decode_single_prefixed (d :: extra)]
  simp only [hnot, if_false]

/-- Decoding a long-form string header (`0xB7 + L`) followed by a length
field and its payload. -/
theorem decode_hdr_long_str (n : Nat) (payload extra : List Nat)
    (hn : payload.length = n) (hn55 : MAX_SHORT_LEN < n) (hn63 : n < 2 ^ 63) :
    Header.decode ((LONG_STRING_OFFSET + (minimal_be n).length)
        :: (minimal_be n ++ (payload ++ extra))) =
      .ok (Header.new false n, payload ++ extra) := by
  have hn0 : 0 < n := by
    unfold MAX_SHORT_LEN at hn55
    omega
  have hn8 : n < 256 ^ 8 := by
    calc n < 2 ^ 63 := hn63
      _ < 256 ^ 8 := by norm_num
  have hL1 : 0 < (minimal_be n).length := minimal_be_len_pos n hn0
  have hL8 : (minimal_be n).length ≤ 8 := (minimal_be_len_le_iff n 8).mpr hn8
  unfold Header.decode
  rw [Header.decodeAt_long_str USIZE_BITS (LONG_STRING_OFFSET + (minimal_be n).length)
    (minimal_be n ++ (payload ++ extra))
    (by unfold LONG_STRING_OFFSET; omega)
    (by unfold LONG_STRING_OFFSET; omega)]
  rw [Nat.add_sub_cancel_left, List.take_left, List.drop_left,
    static_left_pad_minimal_be 8 n hn8, if_neg (by simp only [List.length_append]; omega)]
  simp only [u64_from_be_bytes_pad_minimal]
  rw [if_neg (by unfold USIZE_BITS; omega), if_neg (by omega),
    if_neg (by simp only [List.length_append]; omega)]
  rfl

/-- Decoding a short-form list header (`0xC0 + k`) followed by its payload. -/
theorem decode_hdr_short_list (k : Nat) (payload extra : List Nat)
    (hk : payload.length = k) (hk55 : k ≤ MAX_SHORT_LEN) :
    Header.decode ((EMPTY_LIST_CODE + k) :: (payload ++ extra)) =
      .ok (Header.new true k, payload ++ extra) := by
  rw [Header.decode_short_list (EMPTY_LIST_CODE + k) (payload ++ extra)
    (by omega)
    (by unfold EMPTY_LIST_CODE LONG_LIST_OFFSET
        unfold MAX_SHORT_LEN at hk55
        omega)]
  rw [Nat.add_sub_cancel_left, if_neg (by simp only [List.length_append]; omega)]

/-- Decoding a long-form list header (`0xF7 + L`) followed by a length field
and its payload. -/
theorem decode_hdr_long_list (n : Nat) (payload extra : List Nat)
    (hn : payload.length = n) (hn55 : MAX_SHORT_LEN < n) (hn63 : n < 2 ^ 63) :
    Header.decode ((LONG_LIST_OFFSET + (minimal_be n).length)
        :: (minimal_be n ++ (payload ++ extra))) =
      .ok (Header.new true n, payload ++ extra) := by
  have hn0 : 0 < n := by
    unfold MAX_SHORT_LEN at hn55
    omega
  have hn8 : n < 256 ^ 8 := by
    calc n < 2 ^ 63 := hn63
      _ < 256 ^ 8 := by norm_num
  have hL1 : 0 < (minimal_be n).length := minimal_be_len_pos n hn0
  have hL8 : (minimal_be n).length ≤ 8 := (minimal_be_len_le_iff n 8).mpr hn8
  unfold Header.decode
  rw [Header.decodeAt_long_list USIZE_BITS (LONG_LIST_OFFSET + (minimal_be n).length)
    (minimal_be n ++ (payload ++ extra))
    (by unfold LONG_LIST_OFFSET; omega)
    (by unfold LONG_LIST_OFFSET; omega)]
  rw [Nat.add_sub_cancel_left, List.take_left, List.drop_left,
    static_left_pad_minimal_be 8 n hn8, if_neg (by simp only [List.length_append]; omega)]
  simp only [u64_from_be_bytes_pad_minimal]
  rw [if_neg (by unfold USIZE_BITS; omega), if_neg (by omega),
    if_neg (by simp only [List.length_append]; omega)]
  rfl

/-- Decoding the encoding of a byte string as a string payload: the composite
of the header lemmas, covering all four encoder branches of
`<[u8] as Encodable>::encode`. -/
theorem decode_bytes_bytes_encode (bs extra : List Nat) (hbytes : ∀ b ∈ bs, b < 256)
    (hlen : bs.length < 2 ^ 63) :
    Header.decode_bytes (bytes_encode bs ++ extra) false = .ok (bs, extra) := by
  have hself : Header.decode (bytes_encode bs ++ extra) =
      .ok (Header.new false bs.length, bs ++ extra) := by
    rcases hbs : bs with _ | ⟨b0, bt⟩
    · have henc : bytes_encode [] = [EMPTY_STRING_CODE + 0] := by
        unfold bytes_encode
        rw [if_pos (Or.inl (by simp))]
        simp only [List.length_nil]
        rw [Header.encode_new_short_str 0 (by norm_num [MAX_SHORT_LEN])]
        simp
      rw [henc, List.singleton_append, ← List.nil_append extra, List.nil_append,
        ← List.nil_append extra]
      exact decode_hdr_short_str 0 [] extra rfl (by norm_num [MAX_SHORT_LEN]) (by omega)
    · rcases hbt : bt with _ | ⟨b1, bt2⟩
      · by_cases hb0 : b0 < EMPTY_STRING_CODE
        · have henc : bytes_encode [b0] = [b0] := by
            unfold bytes_encode
            rw [if_neg (by simp; omega)]
          rw [henc, List.singleton_append,
            Header.decode_single b0 extra (by unfold EMPTY_STRING_CODE at hb0; omega)]
          rfl
        · push_neg at hb0
          have henc : bytes_encode [b0] = [EMPTY_STRING_CODE + 1, b0] := by
            unfold bytes_encode
            rw [if_pos (by right; simpa using hb0), List.length_singleton,
              Header.encode_new_short_str 1 (by norm_num [MAX_SHORT_LEN])]
            rfl
          rw [henc]
          have : [EMPTY_STRING_CODE + 1, b0] ++ extra =
              (EMPTY_STRING_CODE + 1) :: (b0 :: extra) := rfl
          rw [this, decode_hdr_single_high b0 extra hb0]
          rfl
      · have hlen2 : (b0 :: b1 :: bt2).length ≠ 1 := by simp
        have henc : bytes_encode (b0 :: b1 :: bt2) =
            (Header.new false (b0 :: b1 :: bt2).length).encode ++ (b0 :: b1 :: bt2) := by
          unfold bytes_encode
          rw [if_pos (Or.inl hlen2)]
        subst hbt
        rw [henc]
        by_cases h55 : (b0 :: b1 :: bt2).length ≤ MAX_SHORT_LEN
        · rw [Header.encode_new_short_str _ h55, List.append_assoc, List.singleton_append,
            decode_hdr_short_str (b0 :: b1 :: bt2).length (b0 :: b1 :: bt2) extra rfl
              h55 hlen2]
        · push_neg at h55
          have hlen63 : (b0 :: b1 :: bt2).length < 2 ^ 63 := by
            rw [hbs] at hlen
            exact hlen
          rw [Header.encode_new_long_str _ h55 hlen63, List.append_assoc,
            List.cons_append,
            decode_hdr_long_str (b0 :: b1 :: bt2).length (b0 :: b1 :: bt2) extra rfl
              h55 hlen63]
  rw [decode_bytes_ok _ _ bs.length false false hlen
    (by simp only [List.length_append]; omega) rfl hself,
    List.take_left, List.drop_left]

/-- Decoding the `W`-byte zero-padded value of a single non-zero byte. -/
theorem uint_decode_tail_single (W d : Nat) (extra : List Nat) (hW : 0 < W) (hd : d ≠ 0) :
    (match static_left_pad W [d] with
      | .error e => (.error e : Except Err (Nat × List Nat))
      | .ok padded => .ok (u64_from_be_bytes padded, extra)) = .ok (d, extra) := by
  rw [static_left_pad_ok W [d] (by simpa using hW)
    (by intro a t h
        simp at h
        omega)]
  simp only [List.length_singleton, u64_from_be_bytes_pad]
  simp [u64_from_be_bytes]

/-- The `u8`..`u128`/`usize` decoder inverts the corresponding encoder on any
input that continues past the encoding. -/
theorem uint_decode_encode (W x : Nat) (hW : 0 < W) (hW55 : W ≤ MAX_SHORT_LEN)
    (hx : x < 256 ^ W) (extra : List Nat) :
    uint_decode W (uint_encode W x ++ extra) = .ok (x, extra) := by
  unfold uint_decode
  by_cases hx0 : x = 0
  · subst hx0
    have henc : uint_encode W 0 = [EMPTY_STRING_CODE + 0] := by
      simp [uint_encode]
    rw [henc, List.singleton_append, ← List.nil_append extra,
      decode_bytes_ok ((EMPTY_STRING_CODE + 0) :: ([] ++ extra)) ([] ++ extra) 0 false false
        (by norm_num) (by omega) rfl
        (decode_hdr_short_str 0 [] extra rfl (by norm_num [MAX_SHORT_LEN]) (by omega))]
    simp only [List.take_zero, List.drop_zero, List.nil_append]
    rw [static_left_pad_ok W [] (by simp) (by intro d t h; exact absurd h (by simp))]
    simp only [List.length_nil, Nat.sub_zero, List.append_nil]
    rw [show u64_from_be_bytes (List.replicate W 0) = 0 from foldl_be_replicate_zero W]
  · by_cases hxs : x < EMPTY_STRING_CODE
    · have henc : uint_encode W x = [x] := by
        unfold uint_encode
        rw [if_neg hx0, if_pos hxs]
      rw [henc, List.singleton_append,
        decode_bytes_ok (x :: extra) (x :: extra) 1 false false (by norm_num)
          (by simp) rfl
          (Header.decode_single x extra (by unfold EMPTY_STRING_CODE at hxs; omega))]
      rw [show List.take 1 (x :: extra) = [x] from rfl,
        show List.drop 1 (x :: extra) = extra from rfl]
      exact uint_decode_tail_single W x extra hW hx0
    · push_neg at hxs
      have hx0p : 0 < x := Nat.pos_of_ne_zero hx0
      have hLW : (minimal_be x).length ≤ W := (minimal_be_len_le_iff x W).mpr hx
      have hL1 : 0 < (minimal_be x).length := minimal_be_len_pos x hx0p
      rw [uint_encode_big W x hxs hx]
      by_cases hLone : (minimal_be x).length = 1
      · have hxb : x < 256 := by
          have h := (minimal_be_len_le_iff x 1).mp (by omega)
          simpa using h
        have hmb : minimal_be x = [x] := minimal_be_single x hx0p hxb
        rw [hmb]
        rw [show ((EMPTY_STRING_CODE + ([x] : List Nat).length) :: [x]) ++ extra =
          (EMPTY_STRING_CODE + 1) :: (x :: extra) from rfl]
        rw [decode_bytes_ok ((EMPTY_STRING_CODE + 1) :: (x :: extra)) (x :: extra) 1
          false false (by norm_num) (by simp) rfl
          (decode_hdr_single_high x extra hxs)]
        rw [show List.take 1 (x :: extra) = [x] from rfl,
          show List.drop 1 (x :: extra) = extra from rfl]
        exact uint_decode_tail_single W x extra hW hx0
      · rw [List.cons_append,
          decode_bytes_ok _ (minimal_be x ++ extra) (minimal_be x).length false false
            (by unfold MAX_SHORT_LEN at hW55; omega)
            (by simp only [List.length_append]; omega) rfl
            (decode_hdr_short_str (minimal_be x).length (minimal_be x) extra rfl
              (by omega) hLone),
          List.take_left, List.drop_left]
        simp only [static_left_pad_ok W (minimal_be x) hLW
            (fun d t heq => minimal_be_head_ne_zero x hx0p d t heq),
          u64_from_be_bytes_pad_minimal]

/-- `decode_str` inverts the `str` encoder on valid UTF-8 bytes. -/
theorem decode_str_str_encode (s extra : List Nat) (hb : ∀ b ∈ s, b < 256)
    (hlen : s.length < 2 ^ 63) (hutf : utf8_valid s = true) :
    Header.decode_str (str_encode s ++ extra) = .ok (s, extra) := by
  unfold Header.decode_str str_encode
  rw [decode_bytes_bytes_encode s extra hb hlen]
  simp [hutf]

/-- The fixed-width array decoder inverts the byte-slice encoder on arrays
of the right width. -/
theorem array_decode_encode (N : Nat) (bs extra : List Nat) (hb : ∀ b ∈ bs, b < 256)
    (hlen : bs.length < 2 ^ 63) (hN : bs.length = N) :
    array_decode N (array_encode bs ++ extra) = .ok (bs, extra) := by
  unfold array_decode array_encode
  rw [decode_bytes_bytes_encode bs extra hb hlen]
  simp [hN]

/-- The `bool` decoder inverts the spec's `bool` encoding. -/
theorem bool_decode_encode (b : Bool) (extra : List Nat) :
    bool_decode (bool_encode b ++ extra) = .ok (b, extra) := by
  unfold bool_decode bool_encode
  cases b with
  | false =>
    rw [show (if (false : Bool) then 1 else 0) = 0 from rfl,
      uint_decode_encode 1 0 (by norm_num) (by norm_num [MAX_SHORT_LEN]) (by norm_num) extra]
  | true =>
    rw [show (if (true : Bool) then 1 else 0) = 1 from rfl,
      uint_decode_encode 1 1 (by norm_num) (by norm_num [MAX_SHORT_LEN]) (by norm_num) extra]

/-- The element-draining loop of `Vec::decode` returns exactly the encoded
elements when the payload is a concatenation of element encodings. -/
theorem vec_decode_loop_encode {α : Type} (dec : List Nat → Except Err (α × List Nat))
    (enc : α → List Nat) :
    ∀ (values : List α) (fuel : Nat),
      (∀ v ∈ values, ∀ rest, dec (enc v ++ rest) = .ok (v, rest)) →
      (∀ v ∈ values, enc v ≠ []) →
      ((values.map enc).flatten).length ≤ fuel →
      vec_decode_loop dec fuel ((values.map enc).flatten) = .ok values := by
  intro values
  induction values with
  | nil =>
    intro fuel _ _ _
    simp only [List.map_nil, List.flatten_nil]
    cases fuel <;> rfl
  | cons v vs ih =>
    intro fuel hdec hne hfuel
    obtain ⟨b, t, hbt⟩ := List.exists_cons_of_ne_nil (hne v (List.mem_cons_self v vs))
    have hflat : ((v :: vs).map enc).flatten = enc v ++ (vs.map enc).flatten := by
      simp
    rw [hflat] at hfuel ⊢
    have hfuel2 : ((vs.map enc).flatten).length + 1 ≤ fuel := by
      rw [hbt] at hfuel
      simp only [List.length_append, List.length_cons] at hfuel
      omega
    cases fuel with
    | zero => omega
    | succ f =>
      rw [hbt, List.cons_append]
      show vec_decode_loop dec (f + 1) (b :: (t ++ (vs.map enc).flatten)) = .ok (v :: vs)
      simp only [vec_decode_loop]
      rw [← List.cons_append, ← hbt, hdec v (List.mem_cons_self v vs) _]
      simp only [ih f (fun w hw => hdec w (List.mem_cons_of_mem v hw))
        (fun w hw => hne w (List.mem_cons_of_mem v hw)) (by omega)]

theorem foldl_add_len {α : Type} (len : α → Nat) (values : List α) :
    ∀ init, values.foldl (fun acc v => acc + len v) init = init + (values.map len).sum := by
  induction values with
  | nil => intro init; simp
  | cons v vs ih =>
    intro init
    simp only [List.foldl_cons, List.map_cons, List.sum_cons, ih (init + len v)]
    omega

/-- The payload length computed by `list_header` equals the length of the
concatenated element encodings, given per-element length consistency. -/
theorem list_header_payload {α : Type} (enc : α → List Nat) (len : α → Nat)
    (values : List α) (hcons : ∀ v ∈ values, len v = (enc v).length) :
    values.foldl (fun acc v => acc + len v) 0 = ((values.map enc).flatten).length := by
  rw [foldl_add_len len values 0, Nat.zero_add, List.length_flatten, List.map_map]
  congr 1
  exact List.map_congr_left hcons

/-- `Vec::decode` inverts `encode_list` for any element codec that
round-trips with non-empty encodings. -/
theorem vec_decode_encode {α : Type} (dec : List Nat → Except Err (α × List Nat))
    (enc : α → List Nat) (len : α → Nat) (values : List α) (extra : List Nat)
    (hcons : ∀ v ∈ values, len v = (enc v).length)
    (hdec : ∀ v ∈ values, ∀ rest, dec (enc v ++ rest) = .ok (v, rest))
    (hne : ∀ v ∈ values, enc v ≠ [])
    (hlen : ((values.map enc).flatten).length < 2 ^ 63) :
    vec_decode dec (vec_encode enc len values ++ extra) = .ok (values, extra) := by
  have hS : values.foldl (fun acc v => acc + len v) 0 = ((values.map enc).flatten).length :=
    list_header_payload enc len values hcons
  have hdb : Header.decode_bytes (vec_encode enc len values ++ extra) true =
      .ok ((values.map enc).flatten, extra) := by
    unfold vec_encode encode_list list_header
    rw [hS]
    have hdechdr : Header.decode
        (((Header.new true ((values.map enc).flatten).length).encode ++
          (values.map enc).flatten) ++ extra) =
        .ok (Header.new true ((values.map enc).flatten).length,
          (values.map enc).flatten ++ extra) := by
      by_cases h55 : ((values.map enc).flatten).length ≤ MAX_SHORT_LEN
      · rw [Header.encode_new_short_list _ h55, List.append_assoc, List.singleton_append,
          decode_hdr_short_list _ _ extra rfl h55]
      · push_neg at h55
        rw [Header.encode_new_long_list _ h55 hlen, List.append_assoc, List.cons_append,
          decode_hdr_long_list _ _ extra rfl h55 hlen]
    rw [decode_bytes_ok _ _ ((values.map enc).flatten).length true true hlen
      (by simp only [List.length_append]; omega) rfl hdechdr,
      List.take_left, List.drop_left]
  unfold vec_decode
  rw [hdb]
  simp only [vec_decode_loop_encode dec enc values ((values.map enc).flatten).length
    hdec hne (le_refl _)]

theorem static_left_pad_value (N : Nat) (data p : List Nat)
    (h : static_left_pad N data = .ok p) :
    u64_from_be_bytes p = u64_from_be_bytes data := by
  unfold static_left_pad at h
  by_cases hlen : data.length > N
  · rw [if_pos hlen] at h
    exact absurd h (by simp)
  · rw [if_neg hlen] at h
    cases data with
    | nil =>
      simp only [Except.ok.injEq] at h
      subst h
      rw [show u64_from_be_bytes [] = 0 from rfl,
        show u64_from_be_bytes (List.replicate N 0) = 0 from foldl_be_replicate_zero N]
    | cons d t =>
      by_cases hd : d = 0
      · simp only [if_pos hd] at h
        exact absurd h (by simp)
      · simp only [if_neg hd, Except.ok.injEq] at h
        subst h
        rw [u64_from_be_bytes_pad]

/-- Successful decode inversion: first byte at most `0x7F`. -/
theorem decode_ok_single (b : Nat) (rest buf1 : List Nat) (hd : Header)
    (hb : b ≤ 0x7F) (hdec : Header.decode (b :: rest) = .ok (hd, buf1)) :
    hd = Header.new false 1 ∧ buf1 = b :: rest := by
  rw [Header.decode_single b rest hb] at hdec
  simp only [Except.ok.injEq, Prod.mk.injEq] at hdec
  exact ⟨hdec.1.symm, hdec.2.symm⟩

/-- Successful decode inversion: short string header. -/
theorem decode_ok_short_str (b : Nat) (rest buf1 : List Nat) (hd : Header)
    (hb1 : 0x80 ≤ b) (hb2 : b ≤ 0xB7)
    (hdec : Header.decode (b :: rest) = .ok (hd, buf1)) :
    hd = Header.new false (b - 0x80) ∧ buf1 = rest ∧ b - 0x80 ≤ rest.length := by
  by_cases h81 : b = 0x81
  · subst h81
    rw [Header.decode_single_prefixed rest] at hdec
    cases rest with
    | nil => exact absurd hdec (by simp)
    | cons nb rest2 =>
      by_cases hnb : nb < EMPTY_STRING_CODE
      · simp only [if_pos hnb] at hdec
        exact absurd hdec (by simp)
      · simp only [if_neg hnb, Except.ok.injEq, Prod.mk.injEq] at hdec
        refine ⟨hdec.1.symm, hdec.2.symm, by simp⟩
  · rw [Header.decode_short_str b rest (by unfold EMPTY_STRING_CODE; omega)
      (by unfold LONG_STRING_OFFSET; omega) h81] at hdec
    by_cases hlen : rest.length < b - EMPTY_STRING_CODE
    · rw [if_pos hlen] at hdec
      exact absurd hdec (by simp)
    · rw [if_neg hlen] at hdec
      simp only [Except.ok.injEq, Prod.mk.injEq] at hdec
      unfold EMPTY_STRING_CODE at hdec hlen
      exact ⟨hdec.1.symm, hdec.2.symm, by omega⟩

/-- Successful decode inversion: short list header. -/
theorem decode_ok_short_list (b : Nat) (rest buf1 : List Nat) (hd : Header)
    (hb1 : 0xC0 ≤ b) (hb2 : b ≤ 0xF7)
    (hdec : Header.decode (b :: rest) = .ok (hd, buf1)) :
    hd = Header.new true (b - 0xC0) ∧ buf1 = rest ∧ b - 0xC0 ≤ rest.length := by
  rw [Header.decode_short_list b rest (by unfold EMPTY_LIST_CODE; omega)
    (by unfold LONG_LIST_OFFSET; omega)] at hdec
  by_cases hlen : rest.length < b - EMPTY_LIST_CODE
  · rw [if_pos hlen] at hdec
    exact absurd hdec (by simp)
  · rw [if_neg hlen] at hdec
    simp only [Except.ok.injEq, Prod.mk.injEq] at hdec
    unfold EMPTY_LIST_CODE at hdec hlen
    exact ⟨hdec.1.symm, hdec.2.symm, by omega⟩

/-- Successful decode inversion: long string header. -/
theorem decode_ok_long_str (b : Nat) (rest buf1 : List Nat) (hd : Header)
    (hb1 : 0xB8 ≤ b) (hb2 : b ≤ 0xBF)
    (hdec : Header.decode (b :: rest) = .ok (hd, buf1)) :
    b - 0xB7 ≤ rest.length ∧
    hd = Header.new false (u64_from_be_bytes (rest.take (b - 0xB7))) ∧
    buf1 = rest.drop (b - 0xB7) ∧
    0x37 < u64_from_be_bytes (rest.take (b - 0xB7)) ∧
    u64_from_be_bytes (rest.take (b - 0xB7)) < 2 ^ 64 ∧
    u64_from_be_bytes (rest.take (b - 0xB7)) ≤ buf1.length := by
  unfold Header.decode at hdec
  rw [Header.decodeAt_long_str USIZE_BITS b rest hb1 hb2] at hdec
  simp only [LONG_STRING_OFFSET, MAX_SHORT_LEN, USIZE_BITS] at hdec
  by_cases hlen : rest.length < b - 183
  · rw [if_pos hlen] at hdec
    exact absurd hdec (by simp)
  · rw [if_neg hlen] at hdec
    rcases hpad : static_left_pad 8 (rest.take (b - 183)) with e | padded
    · rw [hpad] at hdec
      exact absurd hdec (by simp)
    · simp only [hpad] at hdec
      have hval : u64_from_be_bytes padded =
          u64_from_be_bytes (rest.take (b - 183)) :=
        static_left_pad_value 8 _ padded hpad
      rw [hval] at hdec
      by_cases hov : 2 ^ 64 ≤ u64_from_be_bytes (rest.take (b - 183))
      · rw [if_pos hov] at hdec
        exact absurd hdec (by simp)
      · rw [if_neg hov] at hdec
        by_cases hnc : u64_from_be_bytes (rest.take (b - 183)) ≤ 55
        · rw [if_pos hnc] at hdec
          exact absurd hdec (by simp)
        · rw [if_neg hnc] at hdec
          by_cases hsh : (rest.drop (b - 183)).length <
              u64_from_be_bytes (rest.take (b - 183))
          · rw [if_pos hsh] at hdec
            exact absurd hdec (by simp)
          · rw [if_neg hsh] at hdec
            simp only [Except.ok.injEq, Prod.mk.injEq] at hdec
            obtain ⟨hhd, hbuf1⟩ := hdec
            subst hbuf1
            exact ⟨by omega, hhd.symm, rfl, by omega, by omega, by omega⟩

/-- Successful decode inversion: long list header. -/
theorem decode_ok_long_list (b : Nat) (rest buf1 : List Nat) (hd : Header)
    (hb1 : 0xF8 ≤ b) (hb2 : b ≤ 0xFF)
    (hdec : Header.decode (b :: rest) = .ok (hd, buf1)) :
    b - 0xF7 ≤ rest.length ∧
    hd = Header.new true (u64_from_be_bytes (rest.take (b - 0xF7))) ∧
    buf1 = rest.drop (b - 0xF7) ∧
    0x37 < u64_from_be_bytes (rest.take (b - 0xF7)) ∧
    u64_from_be_bytes (rest.take (b - 0xF7)) < 2 ^ 64 ∧
    u64_from_be_bytes (rest.take (b - 0xF7)) ≤ buf1.length := by
  unfold Header.decode at hdec
  rw [Header.decodeAt_long_list USIZE_BITS b rest hb1 hb2] at hdec
  simp only [LONG_LIST_OFFSET, MAX_SHORT_LEN, USIZE_BITS] at hdec
  by_cases hlen : rest.length < b - 247
  · rw [if_pos hlen] at hdec
    exact absurd hdec (by simp)
  · rw [if_neg hlen] at hdec
    rcases hpad : static_left_pad 8 (rest.take (b - 247)) with e | padded
    · rw [hpad] at hdec
      exact absurd hdec (by simp)
    · simp only [hpad] at hdec
      have hval : u64_from_be_bytes padded =
          u64_from_be_bytes (rest.take (b - 247)) :=
        static_left_pad_value 8 _ padded hpad
      rw [hval] at hdec
      by_cases hov : 2 ^ 64 ≤ u64_from_be_bytes (rest.take (b - 247))
      · rw [if_pos hov] at hdec
        exact absurd hdec (by simp)
      · rw [if_neg hov] at hdec
        by_cases hnc : u64_from_be_bytes (rest.take (b - 247)) ≤ 55
        · rw [if_pos hnc] at hdec
          exact absurd hdec (by simp)
        · rw [if_neg hnc] at hdec
          by_cases hsh : (rest.drop (b - 247)).length <
              u64_from_be_bytes (rest.take (b - 247))
          · rw [if_pos hsh] at hdec
            exact absurd hdec (by simp)
          · rw [if_neg hsh] at hdec
            simp only [Except.ok.injEq, Prod.mk.injEq] at hdec
            obtain ⟨hhd, hbuf1⟩ := hdec
            subst hbuf1
            exact ⟨by omega, hhd.symm, rfl, by omega, by omega, by omega⟩

/-- Every successful header decode leaves at least `payload_length` bytes in
the cursor (inputs of realistic length, with byte-valued elements). -/
theorem Header.decode_ok_payload_le (b : Nat) (rest buf1 : List Nat) (hd : Header)
    (hb : b < 256) (hbuf : (b :: rest).length < 2 ^ 63)
    (hdec : Header.decode (b :: rest) = .ok (hd, buf1)) :
    hd.payload_length ≤ buf1.length := by
  have hrest : rest.length < 2 ^ 63 := by
    simp only [List.length_cons] at hbuf
    omega
  by_cases h1 : b ≤ 0x7F
  · obtain ⟨hhd, hbuf1⟩ := decode_ok_single b rest buf1 hd h1 hdec
    subst hhd hbuf1
    rw [Header.new_payload_length false 1 (by norm_num)]
    simp
  · by_cases h2 : b ≤ 0xB7
    · obtain ⟨hhd, hbuf1, hle⟩ := decode_ok_short_str b rest buf1 hd (by omega) h2 hdec
      subst hhd hbuf1
      rw [Header.new_payload_length false (b - 0x80) (by omega)]
      exact hle
    · by_cases h3 : b ≤ 0xBF
      · obtain ⟨hL, hhd, hbuf1, _, _, hle⟩ :=
          decode_ok_long_str b rest buf1 hd (by omega) h3 hdec
        subst hhd
        have hnlt : u64_from_be_bytes (rest.take (b - 0xB7)) < 2 ^ 63 := by
          have hdl : (rest.drop (b - 0xB7)).length ≤ rest.length := by
            rw [List.length_drop]
            omega
          rw [hbuf1] at hle
          omega
        rw [Header.new_payload_length false _ hnlt]
        exact hle
      · by_cases h4 : b ≤ 0xF7
        · obtain ⟨hhd, hbuf1, hle⟩ := decode_ok_short_list b rest buf1 hd (by omega) h4 hdec
          subst hhd hbuf1
          rw [Header.new_payload_length true (b - 0xC0) (by omega)]
          exact hle
        · obtain ⟨hL, hhd, hbuf1, _, _, hle⟩ :=
            decode_ok_long_list b rest buf1 hd (by omega) (by omega) hdec
          subst hhd
          have hnlt : u64_from_be_bytes (rest.take (b - 0xF7)) < 2 ^ 63 := by
            have hdl : (rest.drop (b - 0xF7)).length ≤ rest.length := by
              rw [List.length_drop]
              omega
            rw [hbuf1] at hle
            omega
          rw [Header.new_payload_length true _ hnlt]
          exact hle

theorem uint_length_encode (W x : Nat) (hW : 0 < W) (hx : x < 256 ^ W) :
    uint_length W x = (uint_encode W x).length := by
  by_cases hxs : x < EMPTY_STRING_CODE
  · unfold uint_length uint_encode
    by_cases hx0 : x = 0
    · rw [if_pos hxs, if_pos hx0]
      rfl
    · rw [if_pos hxs, if_neg hx0, if_pos hxs]
      rfl
  · push_neg at hxs
    have hx0 : 0 < x := by
      unfold EMPTY_STRING_CODE at hxs
      omega
    rw [uint_encode_big W x hxs hx]
    unfold uint_length
    rw [if_neg (by omega)]
    simp only [List.length_cons]
    rw [lz_div8 W x hx0 hx]
    have hLW : (minimal_be x).length ≤ W := (minimal_be_len_le_iff x W).mpr hx
    omega

theorem bytes_length_encode (bs : List Nat) (hlen : bs.length < 2 ^ 63) :
    bytes_length bs = (bytes_encode bs).length := by
  unfold bytes_length bytes_encode
  by_cases hc : bs.length ≠ 1 ∨ EMPTY_STRING_CODE ≤ bs.headD 0
  · rw [if_pos hc, if_pos hc]
    simp only [List.length_append]
    rw [Header.encode_new_length false bs.length hlen]
    omega
  · rw [if_neg hc, if_neg hc]

theorem str_length_encode (s : List Nat) (hlen : s.length < 2 ^ 63) :
    str_length s = (str_encode s).length := by
  unfold str_length str_encode
  exact bytes_length_encode s hlen

theorem list_length_encode {α : Type} (enc : α → List Nat) (len : α → Nat)
    (values : List α) (hcons : ∀ v ∈ values, len v = (enc v).length)
    (hS : ((values.map enc).flatten).length < 2 ^ 63) :
    list_length len values = (encode_list enc len values).length := by
  unfold list_length encode_list list_header
  rw [list_header_payload enc len values hcons]
  simp only [List.length_append]
  rw [Header.new_payload_length true _ hS]
  unfold Header.length
  rw [Header.new_payload_length true _ hS, Header.encode_new_length true _ hS]
  omega

theorem packed_zero_payload_length : (⟨0⟩ : Header).payload_length = 0 := by
  unfold Header.payload_length
  rw [Nat.zero_and]

/-- The header fold of `encode_iter`, starting from a genuine list header:
each step adds one element length to the payload. -/
theorem encode_iter_fold {α : Type} (len : α → Nat) (values : List α) :
    ∀ s, s + (values.map len).sum < 2 ^ 63 →
      values.foldl (fun h t => Header.new true (h.payload_length + len t))
          (Header.new true s) =
        Header.new true (s + (values.map len).sum) := by
  induction values with
  | nil =>
    intro s _
    simp
  | cons v vs ih =>
    intro s h
    simp only [List.map_cons, List.sum_cons] at h
    simp only [List.foldl_cons]
    rw [Header.new_payload_length true s (by omega), ih (s + len v) (by omega)]
    congr 1
    simp only [List.map_cons, List.sum_cons]
    omega

/-- On a non-empty sequence, `encode_iter` and `encode_list` agree. -/
theorem encode_iter_eq_encode_list {α : Type} (enc : α → List Nat) (len : α → Nat)
    (v : α) (vs : List α) (hsum : ((v :: vs).map len).sum < 2 ^ 63) :
    encode_iter enc len (v :: vs) = encode_list enc len (v :: vs) := by
  unfold encode_iter encode_list list_header
  simp only [List.foldl_cons, packed_zero_payload_length]
  simp only [List.map_cons, List.sum_cons] at hsum
  have hstep : Header.new true (0 + len v) = Header.new true (len v) := by
    rw [Nat.zero_add]
  rw [hstep, encode_iter_fold len vs (len v) (by omega)]
  have hfold : vs.foldl (fun acc t => acc + len t) (0 + len v) =
      len v + (vs.map len).sum := by
    rw [foldl_add_len len vs (0 + len v)]
    omega
  rw [hfold]

/-- `encode_iter` on the empty sequence emits a header with `packed = 0`,
whose flag bit is clear: the output is the byte `0x80`, a string header. -/
theorem encode_iter_nil {α : Type} (enc : α → List Nat) (len : α → Nat) :
    encode_iter enc len ([] : List α) = [EMPTY_STRING_CODE] := by
  unfold encode_iter
  simp only [List.foldl_nil, List.map_nil, List.flatten_nil, List.append_nil]
  rfl

/-- `encode_list` on the empty sequence emits the list header `0xC0`. -/
theorem encode_list_nil {α : Type} (enc : α → List Nat) (len : α → Nat) :
    encode_list enc len ([] : List α) = [EMPTY_LIST_CODE] := by
  unfold encode_list list_header
  simp only [List.foldl_nil, List.map_nil, List.flatten_nil, List.append_nil]
  rw [Header.encode_new_short_list 0 (by norm_num [MAX_SHORT_LEN])]
  rfl

/-- C5: for every unsigned integer x of a supported width W (in bytes),
`encode(x)` is the single byte `0x80` if x = 0, the single byte x if
`0 < x < 0x80`, and otherwise `0x80 + k` followed by the k big-endian bytes
of x with all leading zero bytes stripped (`minimal_be x`); in particular
`encode(0u8) = 80`, `encode(1u8) = 01`, `encode(0x7Fu8) = 7f`, and
`encode(0x80u8) = 81 80`. -/
theorem C5_uint_encode_form :
    (∀ W x, 0 < W → x < 256 ^ W →
      uint_encode W x =
        if x = 0 then [0x80]
        else if x < 0x80 then [x]
        else (0x80 + (minimal_be x).length) :: minimal_be x) ∧
    uint_encode 1 0 = [0x80] ∧ uint_encode 1 1 = [0x01] ∧
    uint_encode 1 0x7F = [0x7F] ∧ uint_encode 1 0x80 = [0x81, 0x80] := by
  refine ⟨?_, by decide, by decide, by decide, by decide⟩
  intro W x hW hx
  by_cases hx0 : x = 0
  · subst hx0
    simp [uint_encode, EMPTY_STRING_CODE]
  · by_cases hxs : x < 0x80
    · rw [if_neg hx0, if_pos hxs]
      unfold uint_encode
      rw [if_neg hx0, if_pos (by unfold EMPTY_STRING_CODE; omega)]
    · rw [if_neg hx0, if_neg hxs]
      rw [uint_encode_big W x (by unfold EMPTY_STRING_CODE; omega) hx]
      rfl

/-- Witness for C5 at width 2 and value 0x1234. -/
theorem C5_uint_encode_form_witness :
    uint_encode 2 0x1234 =
      (if (0x1234 : Nat) = 0 then [0x80]
       else if (0x1234 : Nat) < 0x80 then [0x1234]
       else (0x80 + (minimal_be 0x1234).length) :: minimal_be 0x1234) :=
  C5_uint_encode_form.1 2 0x1234 (by decide) (by decide)

/-- C10: `bool::decode` decodes the next item as a `u8` and returns false for
0 and true for 1, while any value of 2 or more is rejected with the error
`InputTooShort` specifically; in particular the single byte `0x02` fails with
`InputTooShort`. -/
theorem C10_bool_decode :
    (∀ buf x buf1, uint_decode 1 buf = .ok (x, buf1) →
      (x = 0 → bool_decode buf = .ok (false, buf1)) ∧
      (x = 1 → bool_decode buf = .ok (true, buf1)) ∧
      (2 ≤ x → bool_decode buf = .error .InputTooShort)) ∧
    bool_decode [0x02] = .error .InputTooShort := by
  refine ⟨?_, by decide⟩
  intro buf x buf1 h
  refine ⟨?_, ?_, ?_⟩
  · intro hx
    subst hx
    unfold bool_decode
    rw [h]
  · intro hx
    subst hx
    unfold bool_decode
    rw [h]
  · intro hx
    unfold bool_decode
    rw [h]
    rcases x with _ | _ | n
    · omega
    · omega
    · rfl

/-- Witness for C10 at the input `0x80` (the u8 value 0). -/
theorem C10_bool_decode_witness :
    uint_decode 1 [0x80] = .ok (0, []) ∧ bool_decode [0x80] = .ok (false, []) :=
  ⟨by decide, (C10_bool_decode.1 [0x80] 0 [] (by decide)).1 rfl⟩

/-- C6 (code evaluated at the failing input): `encode_list` always writes a
list header whose payload length is the sum of the element lengths followed
by the element encodings; on the empty sequence it writes the single byte
`0xC0` and `encode_iter` agrees with it on every non-empty sequence — but on
the empty sequence `encode_iter` writes the string header `0x80` instead of
`0xC0`, because the list flag is only ever set inside its accumulation
loop. -/
theorem C6_encode_list_iter :
    (∀ (α : Type) (enc : α → List Nat) (len : α → Nat) (values : List α),
      ((values.map len).sum < 2 ^ 63) →
      encode_list enc len values =
        (Header.new true ((values.map len).sum)).encode ++ (values.map enc).flatten) ∧
    (∀ (α : Type) (enc : α → List Nat) (len : α → Nat),
      encode_list enc len ([] : List α) = [0xC0]) ∧
    (∀ (α : Type) (enc : α → List Nat) (len : α → Nat) (v : α) (vs : List α),
      ((v :: vs).map len).sum < 2 ^ 63 →
      encode_iter enc len (v :: vs) = encode_list enc len (v :: vs)) ∧
    (∀ (α : Type) (enc : α → List Nat) (len : α → Nat),
      encode_iter enc len ([] : List α) = [0x80]) ∧
    ([0x80] : List Nat) ≠ [0xC0] := by
  refine ⟨?_, ?_, ?_, ?_, by decide⟩
  · intro α enc len values hsum
    unfold encode_list list_header
    rw [foldl_add_len len values 0, Nat.zero_add]
  · intro α enc len
    rw [encode_list_nil]
    rfl
  · intro α enc len v vs hsum
    exact encode_iter_eq_encode_list enc len v vs hsum
  · intro α enc len
    rw [encode_iter_nil]
    rfl

/-- Witness for C6 on concrete sequences of byte strings. -/
theorem C6_encode_list_iter_witness :
    encode_list bytes_encode bytes_length ([] : List (List Nat)) = [0xC0] ∧
    encode_iter bytes_encode bytes_length ([] : List (List Nat)) = [0x80] ∧
    encode_iter bytes_encode bytes_length [[0xFF], [0xFF]] =
      encode_list bytes_encode bytes_length [[0xFF], [0xFF]] ∧
    encode_list bytes_encode bytes_length [[0xFF], [0xFF]] =
      (Header.new true (([[0xFF], [0xFF]].map bytes_length).sum)).encode ++
        ([[0xFF], [0xFF]].map bytes_encode).flatten :=
  ⟨C6_encode_list_iter.2.1 (List Nat) bytes_encode bytes_length,
   C6_encode_list_iter.2.2.2.1 (List Nat) bytes_encode bytes_length,
   C6_encode_list_iter.2.2.1 (List Nat) bytes_encode bytes_length [0xFF] [[0xFF]] (by decide),
   C6_encode_list_iter.1 (List Nat) bytes_encode bytes_length [[0xFF], [0xFF]] (by decide)⟩

/-- C4: for every value of a type implementing `Encodable` in the library —
unsigned integers of the supported widths, byte slices, text, lists (given
per-element length consistency), wrapper types (which forward both
operations), and zero-sized placeholders — `length()` equals the number of
bytes `encode` writes. -/
theorem C4_length_consistency :
    (∀ W x, 0 < W → x < 256 ^ W → uint_length W x = (uint_encode W x).length) ∧
    (∀ bs : List Nat, bs.length < 2 ^ 63 → bytes_length bs = (bytes_encode bs).length) ∧
    (∀ s : List Nat, s.length < 2 ^ 63 → str_length s = (str_encode s).length) ∧
    (∀ (α : Type) (enc : α → List Nat) (len : α → Nat) (values : List α),
      (∀ v ∈ values, len v = (enc v).length) →
      ((values.map enc).flatten).length < 2 ^ 63 →
      vec_length len values = (vec_encode enc len values).length) ∧
    phantom_length = phantom_encode.length := by
  refine ⟨?_, ?_, ?_, ?_, rfl⟩
  · exact uint_length_encode
  · exact bytes_length_encode
  · exact str_length_encode
  · intro α enc len values hcons hS
    exact list_length_encode enc len values hcons hS

/-- C7: `decode_bytes(cursor, expect_list)` fails with `UnexpectedString`
when a list was expected but a string was decoded, fails with
`UnexpectedList` when a string was expected but a list was decoded, and on a
shape match returns the `payload_length`-byte payload slice, advancing the
cursor past the header and exactly `payload_length` payload bytes. -/
theorem C7_decode_bytes_shape :
    ∀ buf buf0 : List Nat, ∀ hd : Header, (∀ x ∈ buf, x < 256) → buf.length < 2 ^ 63 →
      Header.decode buf = .ok (hd, buf0) →
      (hd.list = true → Header.decode_bytes buf false = .error .UnexpectedList) ∧
      (hd.list = false → Header.decode_bytes buf true = .error .UnexpectedString) ∧
      (Header.decode_bytes buf hd.list =
        .ok (buf0.take hd.payload_length, buf0.drop hd.payload_length) ∧
       (buf0.take hd.payload_length).length = hd.payload_length) := by
  intro buf buf0 hd hbyte hlen hdec
  have hple : hd.payload_length ≤ buf0.length := by
    cases buf with
    | nil => exact absurd hdec (by simp [Header.decode, Header.decodeAt, get_next_byte])
    | cons b rest =>
      exact Header.decode_ok_payload_le b rest buf0 hd
        (hbyte b (List.mem_cons_self b rest)) hlen hdec
  refine ⟨?_, ?_, ?_, ?_⟩
  · intro hl
    rw [decode_bytes_unfold buf buf0 hd false hdec, hl]
    rfl
  · intro hl
    rw [decode_bytes_unfold buf buf0 hd true hdec, hl]
    rfl
  · rw [decode_bytes_unfold buf buf0 hd hd.list hdec]
    simp only [bne_self_eq_false, Bool.false_eq_true, if_false]
    rw [if_neg (by omega)]
  · rw [List.length_take]
    omega

/-- Witness for C7 at the concrete list input `C3 01 02 03`. -/
theorem C7_decode_bytes_shape_witness :
    Header.decode_bytes [0xC3, 0x01, 0x02, 0x03] false = .error .UnexpectedList :=
  (C7_decode_bytes_shape [0xC3, 0x01, 0x02, 0x03] [0x01, 0x02, 0x03]
      (Header.new true 3) (by decide) (by decide) (by decide)).1
    (by rw [Header.new_list true 3 (by norm_num)])

/-- A decode that returns a non-empty remainder makes `decode_exact` fail
with `UnexpectedLength`. -/
theorem decode_exact_trailing {α : Type} (dec : List Nat → Except Err (α × List Nat))
    (bytes : List Nat) (v : α) (extra : List Nat) (hex : extra ≠ [])
    (h : dec bytes = .ok (v, extra)) :
    decode_exact dec bytes = .error .UnexpectedLength := by
  unfold decode_exact
  rw [h]
  simp only [if_pos hex]

/-- A decode that consumes the whole input makes `decode_exact` succeed. -/
theorem decode_exact_of_whole {α : Type} (dec : List Nat → Except Err (α × List Nat))
    (bytes : List Nat) (v : α) (h : dec bytes = .ok (v, [])) :
    decode_exact dec bytes = .ok v := by
  unfold decode_exact
  rw [h]
  simp

/-- C8: for a decodable value v and non-empty suffix `extra`, `decode_exact`
on `encode(v) ++ extra` fails with `UnexpectedLength`, while the plain
prefix decode on the same input succeeds, returns v, and leaves exactly
`extra` unconsumed; shown for unsigned integers, byte strings and
booleans. -/
theorem C8_exact_vs_trailing :
    (∀ W x : Nat, ∀ extra : List Nat, 0 < W → W ≤ 55 → x < 256 ^ W → extra ≠ [] →
      decode_exact (uint_decode W) (uint_encode W x ++ extra) = .error .UnexpectedLength ∧
      uint_decode W (uint_encode W x ++ extra) = .ok (x, extra)) ∧
    (∀ bs extra : List Nat, (∀ c ∈ bs, c < 256) → bs.length < 2 ^ 63 → extra ≠ [] →
      decode_exact bytes_decode (bytes_encode bs ++ extra) = .error .UnexpectedLength ∧
      bytes_decode (bytes_encode bs ++ extra) = .ok (bs, extra)) ∧
    (∀ b : Bool, ∀ extra : List Nat, extra ≠ [] →
      decode_exact bool_decode (bool_encode b ++ extra) = .error .UnexpectedLength ∧
      bool_decode (bool_encode b ++ extra) = .ok (b, extra)) := by
  refine ⟨?_, ?_, ?_⟩
  · intro W x extra hW hW55 hx hex
    have h := uint_decode_encode W x hW (by unfold MAX_SHORT_LEN; omega) hx extra
    exact ⟨decode_exact_trailing (uint_decode W) _ x extra hex h, h⟩
  · intro bs extra hb hlen hex
    have h := decode_bytes_bytes_encode bs extra hb hlen
    exact ⟨decode_exact_trailing bytes_decode _ bs extra hex h, h⟩
  · intro b extra hex
    have h := bool_decode_encode b extra
    exact ⟨decode_exact_trailing bool_decode _ b extra hex h, h⟩

/-- Witness for C8 on concrete inputs with one trailing byte. -/
theorem C8_exact_vs_trailing_witness :
    (decode_exact (uint_decode 1) (uint_encode 1 5 ++ [0]) = .error .UnexpectedLength ∧
      uint_decode 1 (uint_encode 1 5 ++ [0]) = .ok (5, [0])) ∧
    (decode_exact bytes_decode (bytes_encode [1, 2] ++ [7]) = .error .UnexpectedLength ∧
      bytes_decode (bytes_encode [1, 2] ++ [7]) = .ok ([1, 2], [7])) ∧
    (decode_exact bool_decode (bool_encode true ++ [9]) = .error .UnexpectedLength ∧
      bool_decode (bool_encode true ++ [9]) = .ok (true, [9])) :=
  ⟨C8_exact_vs_trailing.1 1 5 [0] (by decide) (by decide) (by decide) (by decide),
   C8_exact_vs_trailing.2.1 [1, 2] [7] (by decide) (by decide) (by decide),
   C8_exact_vs_trailing.2.2 true [9] (by decide)⟩

/-- Witness for C4 on concrete values of each class. -/
theorem C4_length_consistency_witness :
    uint_length 2 0x1234 = (uint_encode 2 0x1234).length ∧
    bytes_length [1, 2, 3] = (bytes_encode [1, 2, 3]).length ∧
    str_length [0x68, 0x69] = (str_encode [0x68, 0x69]).length ∧
    vec_length bytes_length [[0xFF], [0xFF]] =
      (vec_encode bytes_encode bytes_length [[0xFF], [0xFF]]).length :=
  ⟨C4_length_consistency.1 2 0x1234 (by decide) (by decide),
   C4_length_consistency.2.1 [1, 2, 3] (by decide),
   C4_length_consistency.2.2.1 [0x68, 0x69] (by decide),
   C4_length_consistency.2.2.2.1 (List Nat) bytes_encode bytes_length [[0xFF], [0xFF]]
     (by decide) (by decide)⟩

theorem Header.encode_ne_nil (h : Header) : h.encode ≠ [] := by
  unfold Header.encode
  by_cases hc : h.payload_length ≤ MAX_SHORT_LEN
  · rw [if_pos hc]
    simp
  · rw [if_neg hc]
    simp

theorem bytes_encode_ne_nil (bs : List Nat) : bytes_encode bs ≠ [] := by
  unfold bytes_encode
  by_cases hc : bs.length ≠ 1 ∨ EMPTY_STRING_CODE ≤ bs.headD 0
  · rw [if_pos hc]
    intro h
    rcases List.append_eq_nil.mp h with ⟨h1, _⟩
    exact Header.encode_ne_nil _ h1
  · rw [if_neg hc]
    push_neg at hc
    intro h
    rw [h] at hc
    simp at hc

theorem uint_encode_ne_nil (W x : Nat) : uint_encode W x ≠ [] := by
  unfold uint_encode
  by_cases h0 : x = 0
  · rw [if_pos h0]
    simp
  · rw [if_neg h0]
    by_cases hs : x < EMPTY_STRING_CODE
    · rw [if_pos hs]
      simp
    · rw [if_neg hs]
      simp

/-- Each element's encoding is no longer than the concatenation of all the
element encodings. -/
theorem elem_len_le_flatten {α : Type} (f : α → List Nat) (l : List α) (x : α)
    (hx : x ∈ l) : (f x).length ≤ ((l.map f).flatten).length := by
  rw [List.length_flatten, List.map_map]
  exact List.single_le_sum (fun _ _ => Nat.zero_le _) _
    (List.mem_map_of_mem (List.length ∘ f) hx)

theorem bytes_len_le_encode (bs : List Nat) : bs.length ≤ (bytes_encode bs).length := by
  unfold bytes_encode
  by_cases hc : bs.length ≠ 1 ∨ EMPTY_STRING_CODE ≤ bs.headD 0
  · rw [if_pos hc]
    simp
  · rw [if_neg hc]

/-- C1: for every supported primitive value v — unsigned integers of widths
8, 16, 32, 64, 128 and the platform word, byte strings, UTF-8 text,
booleans, fixed-width byte arrays, and homogeneous lists of such values —
`decode_exact(encode(v))` succeeds and returns v. (`bool` and `[u8; N]`
encoders are modelled from the spec because `src/` implements only their
decoders.) -/
theorem C1_roundtrip :
    (∀ W x : Nat, (W = 1 ∨ W = 2 ∨ W = 4 ∨ W = 8 ∨ W = 16) → x < 256 ^ W →
      decode_exact (uint_decode W) (uint_encode W x) = .ok x) ∧
    (∀ bs : List Nat, (∀ c ∈ bs, c < 256) → bs.length < 2 ^ 63 →
      decode_exact bytes_decode (bytes_encode bs) = .ok bs) ∧
    (∀ s : List Nat, (∀ c ∈ s, c < 256) → s.length < 2 ^ 63 → utf8_valid s = true →
      decode_exact string_decode (str_encode s) = .ok s) ∧
    (∀ b : Bool, decode_exact bool_decode (bool_encode b) = .ok b) ∧
    (∀ N : Nat, ∀ bs : List Nat, (∀ c ∈ bs, c < 256) → bs.length < 2 ^ 63 →
      bs.length = N → decode_exact (array_decode N) (array_encode bs) = .ok bs) ∧
    (∀ l : List (List Nat), (∀ bs ∈ l, ∀ c ∈ bs, c < 256) →
      ((l.map bytes_encode).flatten).length < 2 ^ 63 →
      decode_exact (vec_decode bytes_decode)
        (vec_encode bytes_encode bytes_length l) = .ok l) ∧
    (∀ W : Nat, ∀ l : List Nat, (W = 1 ∨ W = 2 ∨ W = 4 ∨ W = 8 ∨ W = 16) →
      (∀ x ∈ l, x < 256 ^ W) →
      ((l.map (uint_encode W)).flatten).length < 2 ^ 63 →
      decode_exact (vec_decode (uint_decode W))
        (vec_encode (uint_encode W) (uint_length W) l) = .ok l) := by
  refine ⟨?_, ?_, ?_, ?_, ?_, ?_, ?_⟩
  · intro W x hWmem hx
    have hW : 0 < W := by rcases hWmem with h | h | h | h | h <;> omega
    have hW55 : W ≤ MAX_SHORT_LEN := by
      unfold MAX_SHORT_LEN
      rcases hWmem with h | h | h | h | h <;> omega
    exact decode_exact_of_whole (uint_decode W) _ x
      (by simpa using uint_decode_encode W x hW hW55 hx [])
  · intro bs hb hlen
    exact decode_exact_of_whole bytes_decode _ bs
      (by simpa using decode_bytes_bytes_encode bs [] hb hlen)
  · intro s hb hlen hutf
    exact decode_exact_of_whole string_decode _ s
      (by simpa using decode_str_str_encode s [] hb hlen hutf)
  · intro b
    exact decode_exact_of_whole bool_decode _ b
      (by simpa using bool_decode_encode b [])
  · intro N bs hb hlen hN
    exact decode_exact_of_whole (array_decode N) _ bs
      (by simpa using array_decode_encode N bs [] hb hlen hN)
  · intro l hb hflat
    apply decode_exact_of_whole (vec_decode bytes_decode) _ l
    have h := vec_decode_encode bytes_decode bytes_encode bytes_length l [] ?hcons ?hdec
      ?hne hflat
    · simpa using h
    case hcons =>
      intro bs hbs
      apply bytes_length_encode
      calc bs.length ≤ (bytes_encode bs).length := bytes_len_le_encode bs
        _ ≤ ((l.map bytes_encode).flatten).length := elem_len_le_flatten bytes_encode l bs hbs
        _ < 2 ^ 63 := hflat
    case hdec =>
      intro bs hbs rest
      apply decode_bytes_bytes_encode bs rest (hb bs hbs)
      calc bs.length ≤ (bytes_encode bs).length := bytes_len_le_encode bs
        _ ≤ ((l.map bytes_encode).flatten).length := elem_len_le_flatten bytes_encode l bs hbs
        _ < 2 ^ 63 := hflat
    case hne =>
      intro bs _
      exact bytes_encode_ne_nil bs
  · intro W l hWmem hx hflat
    have hW : 0 < W := by rcases hWmem with h | h | h | h | h <;> omega
    have hW55 : W ≤ MAX_SHORT_LEN := by
      unfold MAX_SHORT_LEN
      rcases hWmem with h | h | h | h | h <;> omega
    apply decode_exact_of_whole (vec_decode (uint_decode W)) _ l
    have h := vec_decode_encode (uint_decode W) (uint_encode W) (uint_length W) l []
      (fun x hxl => uint_length_encode W x hW (hx x hxl))
      (fun x hxl rest => uint_decode_encode W x hW hW55 (hx x hxl) rest)
      (fun x _ => uint_encode_ne_nil W x) hflat
    simpa using h

/-- Witness for C1 on concrete values of each primitive class. -/
theorem C1_roundtrip_witness :
    decode_exact (uint_decode 2) (uint_encode 2 0x1234) = .ok 0x1234 ∧
    decode_exact bytes_decode (bytes_encode [1, 2, 3]) = .ok [1, 2, 3] ∧
    decode_exact string_decode (str_encode [0x68, 0x69]) = .ok [0x68, 0x69] ∧
    decode_exact bool_decode (bool_encode true) = .ok true ∧
    decode_exact (array_decode 2) (array_encode [0xAA, 0xBB]) = .ok [0xAA, 0xBB] ∧
    decode_exact (vec_decode bytes_decode)
      (vec_encode bytes_encode bytes_length [[0xFF], [0xFF]]) = .ok [[0xFF], [0xFF]] ∧
    decode_exact (vec_decode (uint_decode 1))
      (vec_encode (uint_encode 1) (uint_length 1) [1, 2]) = .ok [1, 2] :=
  ⟨C1_roundtrip.1 2 0x1234 (by decide) (by decide),
   C1_roundtrip.2.1 [1, 2, 3] (by decide) (by decide),
   C1_roundtrip.2.2.1 [0x68, 0x69] (by decide) (by decide) (by decide),
   C1_roundtrip.2.2.2.1 true,
   C1_roundtrip.2.2.2.2.1 2 [0xAA, 0xBB] (by decide) (by decide) (by decide),
   C1_roundtrip.2.2.2.2.2.1 [[0xFF], [0xFF]] (by decide) (by decide),
   C1_roundtrip.2.2.2.2.2.2 1 [1, 2] (by decide) (by decide) (by decide)⟩

theorem static_left_pad_leading_zero (N : Nat) (t : List Nat)
    (hlen : (0 :: t : List Nat).length ≤ N) :
    static_left_pad N ((0 : Nat) :: t) = .error .LeadingZero := by
  have h1 : ¬((0 : Nat) :: t).length > N := by omega
  simp only [List.length_cons] at hlen
  simp [static_left_pad, h1]
  omega

theorem take_cons_of_pos (L : Nat) (a : Nat) (l : List Nat) (hL : 0 < L) :
    List.take L (a :: l) = a :: List.take (L - 1) l := by
  cases L with
  | zero => omega
  | succ m => simp

/-- C3 counterexample: decoding `83 00 01 01` as a u16 has a non-empty
string payload that starts with a zero byte, yet it fails with `Overflow`,
not `LeadingZero`: the width check precedes the leading-zero check. -/
theorem C3_counterexample_overflow_first :
    uint_decode 2 [0x83, 0x00, 0x01, 0x01] = .error .Overflow ∧
    uint_decode 2 [0x83, 0x00, 0x01, 0x01] ≠ .error .LeadingZero := by
  constructor <;> decide

/-- C3 (amended): a long-form header whose length field starts with a zero
byte fails with `LeadingZero`; a long-form header whose canonical length
field decodes to at most 55 fails with `NonCanonicalSize`; the short-string
header `0x81` followed by a payload byte below `0x80` fails with
`NonCanonicalSingleByte`; and an unsigned-integer decode whose non-empty
string payload fits the integer width and starts with a zero byte fails
with `LeadingZero` — while a payload wider than the integer fails with
`Overflow` before the leading-zero check. -/
theorem C3_noncanonical_errors :
    (∀ b : Nat, ∀ rt : List Nat, 0xB8 ≤ b → b ≤ 0xBF → b - 0xB7 ≤ rt.length + 1 →
      Header.decode (b :: 0 :: rt) = .error .LeadingZero) ∧
    (∀ b : Nat, ∀ rt : List Nat, 0xF8 ≤ b → b ≤ 0xFF → b - 0xF7 ≤ rt.length + 1 →
      Header.decode (b :: 0 :: rt) = .error .LeadingZero) ∧
    (∀ b : Nat, ∀ rest : List Nat, 0xB8 ≤ b → b ≤ 0xBF → b - 0xB7 ≤ rest.length →
      (∀ d t, rest.take (b - 0xB7) = d :: t → d ≠ 0) →
      u64_from_be_bytes (rest.take (b - 0xB7)) ≤ 55 →
      Header.decode (b :: rest) = .error .NonCanonicalSize) ∧
    (∀ b : Nat, ∀ rest : List Nat, 0xF8 ≤ b → b ≤ 0xFF → b - 0xF7 ≤ rest.length →
      (∀ d t, rest.take (b - 0xF7) = d :: t → d ≠ 0) →
      u64_from_be_bytes (rest.take (b - 0xF7)) ≤ 55 →
      Header.decode (b :: rest) = .error .NonCanonicalSize) ∧
    (∀ b0 : Nat, ∀ rt : List Nat, b0 < 0x80 →
      Header.decode (0x81 :: b0 :: rt) = .error .NonCanonicalSingleByte) ∧
    (∀ W : Nat, ∀ buf bytes buf1 t : List Nat,
      Header.decode_bytes buf false = .ok (bytes, buf1) → bytes.length ≤ W →
      bytes = 0 :: t → uint_decode W buf = .error .LeadingZero) ∧
    (∀ W : Nat, ∀ buf bytes buf1 : List Nat,
      Header.decode_bytes buf false = .ok (bytes, buf1) → W < bytes.length →
      uint_decode W buf = .error .Overflow) := by
  refine ⟨?_, ?_, ?_, ?_, ?_, ?_, ?_⟩
  · intro b rt hb1 hb2 hlen
    unfold Header.decode
    rw [Header.decodeAt_long_str USIZE_BITS b (0 :: rt) hb1 hb2]
    simp only [LONG_STRING_OFFSET, MAX_SHORT_LEN, USIZE_BITS]
    rw [if_neg (by simp only [List.length_cons]; omega),
      take_cons_of_pos (b - 0xB7) 0 rt (by omega)]
    rw [static_left_pad_leading_zero 8
      (List.take (b - 0xB7 - 1) rt)
      (by simp only [List.length_cons, List.length_take]; omega)]
  · intro b rt hb1 hb2 hlen
    unfold Header.decode
    rw [Header.decodeAt_long_list USIZE_BITS b (0 :: rt) hb1 hb2]
    simp only [LONG_LIST_OFFSET, MAX_SHORT_LEN, USIZE_BITS]
    rw [if_neg (by simp only [List.length_cons]; omega),
      take_cons_of_pos (b - 0xF7) 0 rt (by omega)]
    rw [static_left_pad_leading_zero 8
      (List.take (b - 0xF7 - 1) rt)
      (by simp only [List.length_cons, List.length_take]; omega)]
  · intro b rest hb1 hb2 hlen hhead hval
    unfold Header.decode
    rw [Header.decodeAt_long_str USIZE_BITS b rest hb1 hb2]
    simp only [LONG_STRING_OFFSET, MAX_SHORT_LEN, USIZE_BITS]
    rw [if_neg (by omega)]
    rw [static_left_pad_ok 8 (rest.take (b - 0xB7))
      (by rw [List.length_take]; omega) hhead]
    simp only [u64_from_be_bytes_pad]
    rw [if_neg (by omega), if_pos (by omega)]
  · intro b rest hb1 hb2 hlen hhead hval
    unfold Header.decode
    rw [Header.decodeAt_long_list USIZE_BITS b rest hb1 hb2]
    simp only [LONG_LIST_OFFSET, MAX_SHORT_LEN, USIZE_BITS]
    rw [if_neg (by omega)]
    rw [static_left_pad_ok 8 (rest.take (b - 0xF7))
      (by rw [List.length_take]; omega) hhead]
    simp only [u64_from_be_bytes_pad]
    rw [if_neg (by omega), if_pos (by omega)]
  · intro b0 rt hb0
    rw [Header.decode_single_prefixed (b0 :: rt)]
    simp only [if_pos (show b0 < EMPTY_STRING_CODE by unfold EMPTY_STRING_CODE; omega)]
  · intro W buf bytes buf1 t hdb hlen hzero
    unfold uint_decode
    rw [hdb]
    subst hzero
    simp only [static_left_pad_leading_zero W t hlen]
  · intro W buf bytes buf1 hdb hlen
    unfold uint_decode
    rw [hdb]
    have hpad : static_left_pad W bytes = .error .Overflow := by
      unfold static_left_pad
      rw [if_pos (by omega)]
    simp only [hpad]

/-- Witness for C3 on the spec's own concrete scenarios. -/
theorem C3_noncanonical_errors_witness :
    Header.decode [0xB8, 0x00] = .error .LeadingZero ∧
    Header.decode [0xF8, 0x00] = .error .LeadingZero ∧
    Header.decode [0xB8, 0x37] = .error .NonCanonicalSize ∧
    Header.decode [0xF8, 0x37] = .error .NonCanonicalSize ∧
    Header.decode [0x81, 0x7F] = .error .NonCanonicalSingleByte ∧
    uint_decode 2 [0x82, 0x00, 0x01] = .error .LeadingZero ∧
    uint_decode 2 [0x83, 0x01, 0x01, 0x01] = .error .Overflow :=
  ⟨C3_noncanonical_errors.1 0xB8 [] (by decide) (by decide) (by decide),
   C3_noncanonical_errors.2.1 0xF8 [] (by decide) (by decide) (by decide),
   C3_noncanonical_errors.2.2.1 0xB8 [0x37] (by decide) (by decide) (by decide)
     (by intro d t h
         simp at h
         omega)
     (by decide),
   C3_noncanonical_errors.2.2.2.1 0xF8 [0x37] (by decide) (by decide) (by decide)
     (by intro d t h
         simp at h
         omega)
     (by decide),
   C3_noncanonical_errors.2.2.2.2.1 0x7F [] (by decide),
   C3_noncanonical_errors.2.2.2.2.2.1 2 [0x82, 0x00, 0x01] [0x00, 0x01] [] [0x01]
     (by decide) (by decide) (by decide),
   C3_noncanonical_errors.2.2.2.2.2.2 2 [0x83, 0x01, 0x01, 0x01] [0x01, 0x01, 0x01] []
     (by decide) (by decide)⟩

/-- C9 counterexample: on a 32-bit platform word, the length field
`01 00 00 00 00` (2^32) does not fit in the word, and `Header::decode`
fails with `UnexpectedLength`, not `Overflow`. -/
theorem C9_counterexample_unexpected_length :
    Header.decodeAt 32 [0xBC, 0x01, 0x00, 0x00, 0x00, 0x00] = .error .UnexpectedLength ∧
    Header.decodeAt 32 [0xBC, 0x01, 0x00, 0x00, 0x00, 0x00] ≠ .error .Overflow := by
  constructor <;> decide

/-- C9 (amended): whenever `Header::decode` reads a long-form header whose
big-endian length field denotes a value that does not fit in the platform's
unsigned word, it fails with `UnexpectedLength` (the `usize::try_from`
failure is mapped to `UnexpectedLength`, not `Overflow`). -/
theorem C9_overflow_maps_to_unexpected_length :
    (∀ w b : Nat, ∀ rest : List Nat, 0xB8 ≤ b → b ≤ 0xBF → b - 0xB7 ≤ rest.length →
      (∀ d t, rest.take (b - 0xB7) = d :: t → d ≠ 0) →
      2 ^ w ≤ u64_from_be_bytes (rest.take (b - 0xB7)) →
      Header.decodeAt w (b :: rest) = .error .UnexpectedLength) ∧
    (∀ w b : Nat, ∀ rest : List Nat, 0xF8 ≤ b → b ≤ 0xFF → b - 0xF7 ≤ rest.length →
      (∀ d t, rest.take (b - 0xF7) = d :: t → d ≠ 0) →
      2 ^ w ≤ u64_from_be_bytes (rest.take (b - 0xF7)) →
      Header.decodeAt w (b :: rest) = .error .UnexpectedLength) := by
  constructor
  · intro w b rest hb1 hb2 hlen hhead hov
    rw [Header.decodeAt_long_str w b rest hb1 hb2]
    simp only [LONG_STRING_OFFSET, MAX_SHORT_LEN]
    rw [if_neg (by omega)]
    rw [static_left_pad_ok 8 (rest.take (b - 0xB7))
      (by rw [List.length_take]; omega) hhead]
    simp only [u64_from_be_bytes_pad]
    rw [if_pos hov]
  · intro w b rest hb1 hb2 hlen hhead hov
    rw [Header.decodeAt_long_list w b rest hb1 hb2]
    simp only [LONG_LIST_OFFSET, MAX_SHORT_LEN]
    rw [if_neg (by omega)]
    rw [static_left_pad_ok 8 (rest.take (b - 0xF7))
      (by rw [List.length_take]; omega) hhead]
    simp only [u64_from_be_bytes_pad]
    rw [if_pos hov]

/-- Witness for C9 at word size 32 with the length field 2^32. -/
theorem C9_overflow_maps_to_unexpected_length_witness :
    Header.decodeAt 32 (0xBC :: [0x01, 0x00, 0x00, 0x00, 0x00]) = .error .UnexpectedLength :=
  C9_overflow_maps_to_unexpected_length.1 32 0xBC [0x01, 0x00, 0x00, 0x00, 0x00]
    (by decide) (by decide) (by decide)
    (by intro d t h
        simp at h
        omega)
    (by decide)

/-- C2: `Header::decode` dispatches on the first byte b: for `b ≤ 0x7F` it
returns a string header with `payload_length = 1` without consuming b; for
`0x80 ≤ b ≤ 0xB7` it consumes b and a successful decode is a string header
with `payload_length = b - 0x80`; for `0xC0 ≤ b ≤ 0xF7`, a list header with
`payload_length = b - 0xC0`; for `0xB8 ≤ b ≤ 0xBF` (string) and
`0xF8 ≤ b ≤ 0xFF` (list) it consumes b and `L = b - 0xB7` (resp. `b - 0xF7`)
further bytes read big-endian as the payload length; in every case a
successful decode leaves at least `payload_length` bytes in the cursor, and
a shortfall of payload (or length-field) bytes fails with `InputTooShort`. -/
theorem C2_header_decode_dispatch (b : Nat) (rest : List Nat) (hb : b < 256)
    (hlen63 : (b :: rest).length < 2 ^ 63) :
    (b ≤ 0x7F →
      Header.decode (b :: rest) = .ok (Header.new false 1, b :: rest) ∧
      (Header.new false 1).list = false ∧ (Header.new false 1).payload_length = 1) ∧
    (0x80 ≤ b → b ≤ 0xB7 →
      (∀ hd buf1, Header.decode (b :: rest) = .ok (hd, buf1) →
        hd.list = false ∧ hd.payload_length = b - 0x80 ∧ buf1 = rest) ∧
      (rest.length < b - 0x80 → Header.decode (b :: rest) = .error .InputTooShort)) ∧
    (0xC0 ≤ b → b ≤ 0xF7 →
      (∀ hd buf1, Header.decode (b :: rest) = .ok (hd, buf1) →
        hd.list = true ∧ hd.payload_length = b - 0xC0 ∧ buf1 = rest) ∧
      (rest.length < b - 0xC0 → Header.decode (b :: rest) = .error .InputTooShort)) ∧
    (0xB8 ≤ b → b ≤ 0xBF →
      (∀ hd buf1, Header.decode (b :: rest) = .ok (hd, buf1) →
        hd.list = false ∧
        hd.payload_length = u64_from_be_bytes (rest.take (b - 0xB7)) ∧
        buf1 = rest.drop (b - 0xB7)) ∧
      (rest.length < b - 0xB7 → Header.decode (b :: rest) = .error .InputTooShort) ∧
      (b - 0xB7 ≤ rest.length →
        (∀ d t, rest.take (b - 0xB7) = d :: t → d ≠ 0) →
        0x37 < u64_from_be_bytes (rest.take (b - 0xB7)) →
        u64_from_be_bytes (rest.take (b - 0xB7)) < 2 ^ 64 →
        (rest.drop (b - 0xB7)).length < u64_from_be_bytes (rest.take (b - 0xB7)) →
        Header.decode (b :: rest) = .error .InputTooShort)) ∧
    (0xF8 ≤ b →
      (∀ hd buf1, Header.decode (b :: rest) = .ok (hd, buf1) →
        hd.list = true ∧
        hd.payload_length = u64_from_be_bytes (rest.take (b - 0xF7)) ∧
        buf1 = rest.drop (b - 0xF7)) ∧
      (rest.length < b - 0xF7 → Header.decode (b :: rest) = .error .InputTooShort) ∧
      (b - 0xF7 ≤ rest.length →
        (∀ d t, rest.take (b - 0xF7) = d :: t → d ≠ 0) →
        0x37 < u64_from_be_bytes (rest.take (b - 0xF7)) →
        u64_from_be_bytes (rest.take (b - 0xF7)) < 2 ^ 64 →
        (rest.drop (b - 0xF7)).length < u64_from_be_bytes (rest.take (b - 0xF7)) →
        Header.decode (b :: rest) = .error .InputTooShort)) ∧
    (∀ hd buf1, Header.decode (b :: rest) = .ok (hd, buf1) →
      hd.payload_length ≤ buf1.length) := by
  have hrest63 : rest.length < 2 ^ 63 := by
    simp only [List.length_cons] at hlen63
    omega
  refine ⟨?_, ?_, ?_, ?_, ?_, ?_⟩
  · intro h1
    refine ⟨Header.decode_single b rest h1, Header.new_list false 1 (by norm_num),
      Header.new_payload_length false 1 (by norm_num)⟩
  · intro h1 h2
    constructor
    · intro hd buf1 hdec
      obtain ⟨hhd, hbuf1, hle⟩ := decode_ok_short_str b rest buf1 hd h1 h2 hdec
      subst hhd hbuf1
      exact ⟨Header.new_list false _ (by omega),
        Header.new_payload_length false _ (by omega), rfl⟩
    · intro hsh
      by_cases h81 : b = 0x81
      · subst h81
        have hnil : rest = [] := by
          cases rest with
          | nil => rfl
          | cons a t => simp at hsh
        subst hnil
        rw [Header.decode_single_prefixed []]
      · rw [Header.decode_short_str b rest (by unfold EMPTY_STRING_CODE; omega)
          (by unfold LONG_STRING_OFFSET; omega) h81]
        rw [if_pos (by unfold EMPTY_STRING_CODE; omega)]
  · intro h1 h2
    constructor
    · intro hd buf1 hdec
      obtain ⟨hhd, hbuf1, hle⟩ := decode_ok_short_list b rest buf1 hd h1 h2 hdec
      subst hhd hbuf1
      exact ⟨Header.new_list true _ (by omega),
        Header.new_payload_length true _ (by omega), rfl⟩
    · intro hsh
      rw [Header.decode_short_list b rest (by unfold EMPTY_LIST_CODE; omega)
        (by unfold LONG_LIST_OFFSET; omega)]
      rw [if_pos (by unfold EMPTY_LIST_CODE; omega)]
  · intro h1 h2
    refine ⟨?_, ?_, ?_⟩
    · intro hd buf1 hdec
      obtain ⟨hL, hhd, hbuf1, hgt, hlt, hle⟩ :=
        decode_ok_long_str b rest buf1 hd h1 h2 hdec
      have hn63 : u64_from_be_bytes (rest.take (b - 0xB7)) < 2 ^ 63 := by
        have := List.length_drop (b - 0xB7) rest
        rw [hbuf1] at hle
        omega
      subst hhd
      exact ⟨Header.new_list false _ hn63, Header.new_payload_length false _ hn63, hbuf1⟩
    · intro hsh
      unfold Header.decode
      rw [Header.decodeAt_long_str USIZE_BITS b rest h1 h2]
      simp only [LONG_STRING_OFFSET]
      rw [if_pos (by omega)]
    · intro hfield hhead hgt hlt hsh
      unfold Header.decode
      rw [Header.decodeAt_long_str USIZE_BITS b rest h1 h2]
      simp only [LONG_STRING_OFFSET, MAX_SHORT_LEN, USIZE_BITS]
      rw [if_neg (by omega)]
      rw [static_left_pad_ok 8 (rest.take (b - 0xB7))
        (by rw [List.length_take]; omega) hhead]
      simp only [u64_from_be_bytes_pad]
      rw [if_neg (by omega), if_neg (by omega), if_pos hsh]
  · intro h1
    have h2 : b ≤ 0xFF := by omega
    refine ⟨?_, ?_, ?_⟩
    · intro hd buf1 hdec
      obtain ⟨hL, hhd, hbuf1, hgt, hlt, hle⟩ :=
        decode_ok_long_list b rest buf1 hd h1 h2 hdec
      have hn63 : u64_from_be_bytes (rest.take (b - 0xF7)) < 2 ^ 63 := by
        have := List.length_drop (b - 0xF7) rest
        rw [hbuf1] at hle
        omega
      subst hhd
      exact ⟨Header.new_list true _ hn63, Header.new_payload_length true _ hn63, hbuf1⟩
    · intro hsh
      unfold Header.decode
      rw [Header.decodeAt_long_list USIZE_BITS b rest h1 h2]
      simp only [LONG_LIST_OFFSET]
      rw [if_pos (by omega)]
    · intro hfield hhead hgt hlt hsh
      unfold Header.decode
      rw [Header.decodeAt_long_list USIZE_BITS b rest h1 h2]
      simp only [LONG_LIST_OFFSET, MAX_SHORT_LEN, USIZE_BITS]
      rw [if_neg (by omega)]
      rw [static_left_pad_ok 8 (rest.take (b - 0xF7))
        (by rw [List.length_take]; omega) hhead]
      simp only [u64_from_be_bytes_pad]
      rw [if_neg (by omega), if_neg (by omega), if_pos hsh]
  · intro hd buf1 hdec
    exact Header.decode_ok_payload_le b rest buf1 hd hb hlen63 hdec

/-- Witness for C2 at the single-byte input `05`. -/
theorem C2_header_decode_dispatch_witness :
    Header.decode [0x05] = .ok (Header.new false 1, [0x05]) :=
  ((C2_header_decode_dispatch 0x05 [] (by decide) (by decide)).1 (by decide)).1

end Rlp
